import Mathlib

/-!
# PHP session decoder (`decoder.go`)

A shallow embedding of the recursive-descent decoder of `decoder.go` and the
properties of its public operations `Decode` and `DecodeValue`.

Conventions of the embedding:

* a Go `string` is a list of bytes, a byte being a natural number (below 256 in
  every real input; no definition below depends on that bound);
* the `strings.Reader` of the decoder is represented by the bytes that remain
  to be read: every operation takes the remaining input and returns the
  remaining input after it;
* Go's `int` is the 64-bit signed integer of the usual 64-bit platforms;
* an `error` is `Option GoError`, `none` being `nil`;
* memory is unbounded: `make` fails only on a negative length;
* a call either returns, or panics, or is still running when the step budget
  (`fuel`) is used up; `fuel` bounds the nesting depth of `DecodeValue` and
  the number of iterations of each loop. A statement about what a call returns
  is made for every step budget from some bound on.
-/

namespace PhpSessionDecoder

/-- A Go string: its sequence of bytes. -/
abbrev Bytes := List Nat

/-- The error values built by the decoder and by the library calls it makes.
Callers only ever test an error against `nil`. -/
inductive GoError
  | eof
  | syntaxError
  | rangeError
  | cannotReadExpected
  | readButExpected
  | cannotReadBoolean
  | cannotConvertInt
  | cannotReadInt
  | cannotConvertFloat
  | cannotReadFloat
  | cannotConvertArrayLength
  | cannotReadArrayKey
  | cannotReadArrayValue
  | unexpectedKeyType
  | cannotReadArrayLength
  | cannotConvertStringLength
  | cannotReadStringContent
  | cannotReadStringLength
  | cannotReadVariable
  deriving DecidableEq, Repr

/-- Modelled from the spec: the declarations of `PhpValue`, `PhpSessionData`
and `PhpObject` are not part of `decoder.go`. `PhpValue` is the dynamically
typed value (`interface{}`) that `DecodeValue` produces: `null` is the nil
interface, `bool`, `int`, `float` and `str` are the Go values `bool`, `int`,
`float64` and `string`, `array` is a `PhpSessionData` (a Go map from string
to `PhpValue`, kept as an association list with unique keys) and `object` is a
`*PhpObject` with its fields `className` and `members`. A `float` is kept as
the text handed to `strconv.ParseFloat`. -/
inductive PhpValue
  | null
  | bool (b : Bool)
  | int (n : Int)
  | float (raw : Bytes)
  | str (s : Bytes)
  | array (m : List (Bytes × PhpValue))
  | object (className : Bytes) (members : List (Bytes × PhpValue))

/-- Modelled from the spec: `PhpSessionData`, the Go map from variable name to
value, as an association list in which every key occurs once. -/
abbrev PhpSessionData := List (Bytes × PhpValue)

/-- Map assignment `m[k] = v`: overwrite the entry of `k`, or add one. -/
def mapInsert : PhpSessionData → Bytes → PhpValue → PhpSessionData
  | [], k, v => [(k, v)]
  | (k0, v0) :: m, k, v =>
    if k0 = k then (k0, v) :: m else (k0, v0) :: mapInsert m k v

/-- Map lookup `m[k]` with presence: `none` when `k` is not a key of `m`. -/
def mapLookup : PhpSessionData → Bytes → Option PhpValue
  | [], _ => none
  | (k0, v0) :: m, k => if k0 = k then some v0 else mapLookup m k

/-- How a call ends: it returns, it panics, or the step budget ran out. -/
inductive Outcome (α : Type)
  | ret (a : α)
  | panic
  | outOfFuel

/-- Modelled from the spec: the constant `VALUE_NAME_SEPARATOR` (the byte
`|`) is declared outside `decoder.go`. -/
def VALUE_NAME_SEPARATOR : Nat := 124

/-- Modelled from the spec: the constant `TYPE_VALUE_SEPARATOR` (the byte
`:`) is declared outside `decoder.go`. -/
def TYPE_VALUE_SEPARATOR : Nat := 58

/-- Modelled from the spec: the constant `VALUES_SEPARATOR` (the byte `;`) is
declared outside `decoder.go`. -/
def VALUES_SEPARATOR : Nat := 59

/-! ## Library calls: `strings.Reader`, `unicode/utf8`, `strconv` -/

/-- The rune `utf8.RuneError` (U+FFFD). -/
def RuneError : Nat := 0xFFFD

/-- Whether `b` lies in the closed range `lo .. hi`. -/
def inRange (lo hi b : Nat) : Bool := decide (lo ≤ b) && decide (b ≤ hi)

/-- The table `first` of `unicode/utf8` for the lead bytes of multi-byte
sequences: the length of the sequence and the accepted range of its second
byte. Every other byte (ASCII, or no lead byte) gives `none`. -/
def leadInfo (s0 : Nat) : Option (Nat × Nat × Nat) :=
  if inRange 0xC2 0xDF s0 then some (2, 0x80, 0xBF)
  else if s0 = 0xE0 then some (3, 0xA0, 0xBF)
  else if inRange 0xE1 0xEC s0 then some (3, 0x80, 0xBF)
  else if s0 = 0xED then some (3, 0x80, 0x9F)
  else if inRange 0xEE 0xEF s0 then some (3, 0x80, 0xBF)
  else if s0 = 0xF0 then some (4, 0x90, 0xBF)
  else if inRange 0xF1 0xF3 s0 then some (4, 0x80, 0xBF)
  else if s0 = 0xF4 then some (4, 0x80, 0x8F)
  else none

/-- The function `utf8.DecodeRuneInString` on a non-empty string `s0 :: t`:
the rune and the number of bytes of the first UTF-8 sequence, `RuneError` and
width 1 for an invalid one. -/
def decodeRune (s0 : Nat) (t : Bytes) : Nat × Nat :=
  if s0 < 0x80 then (s0, 1)
  else
    match leadInfo s0 with
    | none => (RuneError, 1)
    | some (sz, lo, hi) =>
      if t.length + 1 < sz then (RuneError, 1)
      else
        match t with
        | [] => (RuneError, 1)
        | s1 :: t1 =>
          if !(inRange lo hi s1) then (RuneError, 1)
          else if sz ≤ 2 then ((s0 % 32) * 64 + s1 % 64, 2)
          else
            match t1 with
            | [] => (RuneError, 1)
            | s2 :: t2 =>
              if !(inRange 0x80 0xBF s2) then (RuneError, 1)
              else if sz ≤ 3 then ((s0 % 16) * 4096 + (s1 % 64) * 64 + s2 % 64, 3)
              else
                match t2 with
                | [] => (RuneError, 1)
                | s3 :: _ =>
                  if !(inRange 0x80 0xBF s3) then (RuneError, 1)
                  else ((s0 % 8) * 262144 + (s1 % 64) * 4096 + (s2 % 64) * 64 + s3 % 64, 4)

/-- The method `strings.Reader.ReadRune`: `none` is `io.EOF`; otherwise the
rune read and the input that remains. -/
def readRune (r : Bytes) : Option (Nat × Bytes) :=
  match r with
  | [] => none
  | s0 :: t => some ((decodeRune s0 t).1, r.drop (decodeRune s0 t).2)

/-- The method `strings.Reader.ReadByte`: `none` is `io.EOF`. -/
def readByte (r : Bytes) : Option (Nat × Bytes) :=
  match r with
  | [] => none
  | b :: t => some (b, t)

/-- The method `strings.Reader.Read` into a buffer of `n` bytes: the bytes
copied, the error and the input that remains. At end of input it copies
nothing and returns `io.EOF`, also when `n` is 0. -/
def read (n : Nat) (r : Bytes) : Bytes × Option GoError × Bytes :=
  match r with
  | [] => ([], some GoError.eof, [])
  | _ :: _ => (r.take n, none, r.drop n)

/-- The largest `uint64`. -/
def maxUint64 : Nat := 2 ^ 64 - 1

/-- The largest `int` (64 bits). -/
def maxInt : Int := 2 ^ 63 - 1

/-- The smallest `int` (64 bits). -/
def minInt : Int := -(2 ^ 63)

/-- The digit loop of `strconv.ParseUint(s, 10, 64)` with accumulator `n`: a
byte that is no decimal digit is a syntax error with value 0, an overflow is
a range error with the largest value. -/
def parseUintLoop : Bytes → Nat → Nat × Option GoError
  | [], n => (n, none)
  | c :: cs, n =>
    if 48 ≤ c ∧ c ≤ 57 then
      if maxUint64 / 10 + 1 ≤ n then (maxUint64, some GoError.rangeError)
      else
        let n10 := (n * 10) % 2 ^ 64
        let n1 := (n10 + (c - 48)) % 2 ^ 64
        if n1 < n10 ∨ maxUint64 < n1 then (maxUint64, some GoError.rangeError)
        else parseUintLoop cs n1
    else (0, some GoError.syntaxError)

/-- The function `strconv.ParseUint(s, 10, 64)`. -/
def parseUint (s : Bytes) : Nat × Option GoError :=
  match s with
  | [] => (0, some GoError.syntaxError)
  | _ :: _ => parseUintLoop s 0

/-- The function `strconv.Atoi`, that is `strconv.ParseInt(s, 10, 0)` with a
64-bit `int`: an optional sign and decimal digits. On a syntax error the
value is 0, on a range error it is the nearest `int`. -/
def atoi (s : Bytes) : Int × Option GoError :=
  match s with
  | [] => (0, some GoError.syntaxError)
  | c :: t =>
    let neg : Bool := decide (c = 45)
    let body : Bytes := if c = 43 ∨ c = 45 then t else s
    match parseUint body with
    | (_, some GoError.syntaxError) => (0, some GoError.syntaxError)
    | (un, _) =>
      if !neg ∧ 2 ^ 63 ≤ un then (maxInt, some GoError.rangeError)
      else if neg ∧ 2 ^ 63 < un then (minInt, some GoError.rangeError)
      else (if neg then -(un : Int) else (un : Int), none)

/-- The little-endian decimal digits of `n` as ASCII bytes; `fuel` bounds the
number of digits. -/
def digitsRev : Nat → Nat → Bytes
  | 0, _ => []
  | fuel + 1, n => if n < 10 then [48 + n] else (48 + n % 10) :: digitsRev fuel (n / 10)

/-- The decimal text of a natural number. -/
def decimal (n : Nat) : Bytes := (digitsRev (n + 1) n).reverse

/-- The function `strconv.Itoa`: the decimal text of an integer, with a
leading `-` when it is negative. -/
def itoa (i : Int) : Bytes :=
  if i < 0 then 45 :: decimal i.natAbs else decimal i.natAbs

/-- Increment of an `int` loop counter, wrapping around at the largest
`int`. -/
def incInt (i : Int) : Int := if i = maxInt then minInt else i + 1

/-! ## The decoder -/

/-- The method `readUntil`: reads bytes up to and including the first
`stopByte`; the error is `io.EOF` when the input ends first. -/
def readUntil (stopByte : Nat) : Bytes → Bytes × Option GoError × Bytes
  | [] => ([], some GoError.eof, [])
  | token :: t =>
    if token = stopByte then ([], none, t)
    else
      match readUntil stopByte t with
      | (result, err, rest) => (token :: result, err, rest)

/-- The method `expect`: reads one rune; the error is non-nil when nothing
could be read and when the rune read EQUALS `expectRune`. -/
def expect (expectRune : Nat) (r : Bytes) : Option GoError × Bytes :=
  match readRune r with
  | none => (some GoError.cannotReadExpected, r)
  | some (token, rest) =>
    if token = expectRune then (some GoError.readButExpected, rest) else (none, rest)

/-- The method `decodeString`: length, `:`, a rune, the content, a rune.
`make([]byte, strLen, strLen)` panics on a negative length. The limit of the
Go runtime on the size of one allocation is not modelled: on a length above it
the code panics as well, where this definition goes on to read. -/
def decodeString (r : Bytes) : Outcome (Bytes × Option GoError × Bytes) :=
  match readUntil TYPE_VALUE_SEPARATOR r with
  | (rawStrlen, none, r1) =>
    match atoi rawStrlen with
    | (_, some _) => Outcome.ret ([], some GoError.cannotConvertStringLength, r1)
    | (strLen, none) =>
      let r2 := (expect 34 r1).2
      if strLen < 0 then Outcome.panic
      else
        match read strLen.toNat r2 with
        | (tmpValue, rerr, r3) =>
          if rerr ≠ none ∨ tmpValue.length ≠ strLen.toNat then
            Outcome.ret ([], some GoError.cannotReadStringContent, r3)
          else Outcome.ret (tmpValue, none, (expect 34 r3).2)
  | (_, some _, r1) => Outcome.ret ([], some GoError.cannotReadStringLength, r1)

/-- The loop `for i := 0; i <= arrLen; i++` of `decodeArray` from counter
value `i` on, over the state `(value, err, remaining input)`; `dv` is
`DecodeValue`. The two tests `err != nil` look at the error of `decodeArray`
itself, not at the error of the value just read. -/
def arrayLoop (dv : Bytes → Outcome (PhpValue × Option GoError × Bytes)) (arrLen : Int) :
    Nat → Int → PhpSessionData × Option GoError × Bytes →
    Outcome (PhpSessionData × Option GoError × Bytes)
  | 0, _, _ => Outcome.outOfFuel
  | steps + 1, i, (value, err, r) =>
    if i ≤ arrLen then
      match dv r with
      | Outcome.ret (k, _, r1) =>
        match err with
        | some _ => arrayLoop dv arrLen steps (incInt i) (value, some GoError.cannotReadArrayKey, r1)
        | none =>
          match dv r1 with
          | Outcome.ret (v, _, r2) =>
            match err with
            | some _ =>
              arrayLoop dv arrLen steps (incInt i) (value, some GoError.cannotReadArrayValue, r2)
            | none =>
              match k with
              | PhpValue.str stringKey =>
                arrayLoop dv arrLen steps (incInt i) (mapInsert value stringKey v, none, r2)
              | PhpValue.int intKey =>
                arrayLoop dv arrLen steps (incInt i) (mapInsert value (itoa intKey) v, none, r2)
              | _ => arrayLoop dv arrLen steps (incInt i) (value, some GoError.unexpectedKeyType, r2)
          | Outcome.panic => Outcome.panic
          | Outcome.outOfFuel => Outcome.outOfFuel
      | Outcome.panic => Outcome.panic
      | Outcome.outOfFuel => Outcome.outOfFuel
    else Outcome.ret (value, err, r)

/-- The method `decodeArray`; `dv` is `DecodeValue` and `steps` bounds the
iterations of the loop. -/
def decodeArray (dv : Bytes → Outcome (PhpValue × Option GoError × Bytes)) (steps : Nat)
    (r : Bytes) : Outcome (PhpSessionData × Option GoError × Bytes) :=
  match readUntil TYPE_VALUE_SEPARATOR r with
  | (rawArrlen, none, r1) =>
    match atoi rawArrlen with
    | (_, some _) => Outcome.ret ([], some GoError.cannotConvertArrayLength, r1)
    | (arrLen, none) =>
      match arrayLoop dv arrLen steps 0 ([], none, (expect 123 r1).2) with
      | Outcome.ret (value, err, r2) => Outcome.ret (value, err, (expect 125 r2).2)
      | Outcome.panic => Outcome.panic
      | Outcome.outOfFuel => Outcome.outOfFuel
  | (_, some _, r1) => Outcome.ret ([], some GoError.cannotReadArrayLength, r1)

/-- The method `decodeObject`: the class name, a rune, the members. The
result is the object (class name and members) and the error. -/
def decodeObject (dv : Bytes → Outcome (PhpValue × Option GoError × Bytes)) (steps : Nat)
    (r : Bytes) : Outcome ((Bytes × PhpSessionData) × Option GoError × Bytes) :=
  match decodeString r with
  | Outcome.ret (className, none, r1) =>
    match decodeArray dv steps (expect TYPE_VALUE_SEPARATOR r1).2 with
    | Outcome.ret (members, err, r2) => Outcome.ret ((className, members), err, r2)
    | Outcome.panic => Outcome.panic
    | Outcome.outOfFuel => Outcome.outOfFuel
  | Outcome.ret (className, some e, r1) => Outcome.ret ((className, []), some e, r1)
  | Outcome.panic => Outcome.panic
  | Outcome.outOfFuel => Outcome.outOfFuel

/-- The method `DecodeValue`. The errors met while decoding are assigned to
the variable `err` that the statement `if token, _, err := ...` declares; the
variable `err` that is returned is another one and is never assigned, so the
error returned is always nil. The result is the value, the error returned and
the input that remains. -/
def DecodeValue : Nat → Bytes → Outcome (PhpValue × Option GoError × Bytes)
  | 0, _ => Outcome.outOfFuel
  | fuel + 1, r =>
    match readRune r with
    | none => Outcome.ret (PhpValue.null, none, r)
    | some (token, r0) =>
      let r1 := (expect TYPE_VALUE_SEPARATOR r0).2
      if token = 98 then
        match readRune r1 with
        | some (rawValue, r2) =>
          Outcome.ret (PhpValue.bool (decide (rawValue = 49)), none, (expect VALUES_SEPARATOR r2).2)
        | none => Outcome.ret (PhpValue.null, none, (expect VALUES_SEPARATOR r1).2)
      else if token = 105 then
        match readUntil VALUES_SEPARATOR r1 with
        | (rawValue, none, r2) => Outcome.ret (PhpValue.int (atoi rawValue).1, none, r2)
        | (_, some _, r2) => Outcome.ret (PhpValue.null, none, r2)
      else if token = 100 then
        match readUntil VALUES_SEPARATOR r1 with
        | (rawValue, none, r2) => Outcome.ret (PhpValue.float rawValue, none, r2)
        | (_, some _, r2) => Outcome.ret (PhpValue.null, none, r2)
      else if token = 115 then
        match decodeString r1 with
        | Outcome.ret (s, _, r2) =>
          Outcome.ret (PhpValue.str s, none, (expect VALUES_SEPARATOR r2).2)
        | Outcome.panic => Outcome.panic
        | Outcome.outOfFuel => Outcome.outOfFuel
      else if token = 97 then
        match decodeArray (DecodeValue fuel) fuel r1 with
        | Outcome.ret (m, _, r2) => Outcome.ret (PhpValue.array m, none, r2)
        | Outcome.panic => Outcome.panic
        | Outcome.outOfFuel => Outcome.outOfFuel
      else if token = 79 then
        match decodeObject (DecodeValue fuel) fuel r1 with
        | Outcome.ret (o, _, r2) => Outcome.ret (PhpValue.object o.1 o.2, none, r2)
        | Outcome.panic => Outcome.panic
        | Outcome.outOfFuel => Outcome.outOfFuel
      else Outcome.ret (PhpValue.null, none, r1)

/-- The loop of `Decode` over the map `data` of the decoder; `dv` is
`DecodeValue`. -/
def decodeLoop (dv : Bytes → Outcome (PhpValue × Option GoError × Bytes)) :
    Nat → PhpSessionData → Bytes → Outcome (PhpSessionData × Option GoError)
  | 0, _, _ => Outcome.outOfFuel
  | steps + 1, data, r =>
    match readUntil VALUE_NAME_SEPARATOR r with
    | (valueName, none, r1) =>
      match dv r1 with
      | Outcome.ret (value, none, r2) => decodeLoop dv steps (mapInsert data valueName value) r2
      | Outcome.ret (_, some _, _) => Outcome.ret (data, some GoError.cannotReadVariable)
      | Outcome.panic => Outcome.panic
      | Outcome.outOfFuel => Outcome.outOfFuel
    | (_, some _, _) => Outcome.ret (data, none)

/-- The call `NewPhpDecoder(phpSession).Decode()`: the session and the
error. -/
def Decode (fuel : Nat) (phpSession : Bytes) : Outcome (PhpSessionData × Option GoError) :=
  decodeLoop (DecodeValue fuel) fuel [] phpSession

/-! ## The serialization format, as the claims write their inputs -/

/-- The bytes of an ASCII string literal. -/
def ascii (s : String) : Bytes := s.data.map Char.toNat

/-- A scalar value: Null, Bool, Int or Str. -/
inductive Scalar
  | null
  | bool (b : Bool)
  | int (n : Int)
  | str (s : Bytes)

/-- The decoded value that a scalar stands for. -/
def Scalar.toValue : Scalar → PhpValue
  | Scalar.null => PhpValue.null
  | Scalar.bool b => PhpValue.bool b
  | Scalar.int n => PhpValue.int n
  | Scalar.str s => PhpValue.str s

/-- The serialized form of a scalar: `N;`, `b:0;` or `b:1;`, `i:<decimal>;`,
`s:<length>:"<bytes>";`. -/
def Scalar.encode : Scalar → Bytes
  | Scalar.null => [78, 59]
  | Scalar.bool b => [98, 58, if b then 49 else 48, 59]
  | Scalar.int n => 105 :: 58 :: (itoa n ++ [59])
  | Scalar.str s => 115 :: 58 :: (decimal s.length ++ 58 :: 34 :: (s ++ [34, 59]))

/-- A scalar of the value model: an Int is a 64-bit signed integer and the
length of a Str is a non-negative `int`. -/
def Scalar.WellTyped : Scalar → Prop
  | Scalar.int n => minInt ≤ n ∧ n ≤ maxInt
  | Scalar.str s => (s.length : Int) ≤ maxInt
  | _ => True

/-- An array key: Int or Str. -/
inductive Key
  | int (n : Int)
  | str (s : Bytes)

/-- The serialized form of a key. -/
def Key.encode : Key → Bytes
  | Key.int n => (Scalar.int n).encode
  | Key.str s => (Scalar.str s).encode

/-- The map key under which a pair is stored: a Str key as it is, an Int key
as its decimal text. -/
def Key.text : Key → Bytes
  | Key.int n => itoa n
  | Key.str s => s

/-- A key of the value model, see `Scalar.WellTyped`. -/
def Key.WellTyped : Key → Prop
  | Key.int n => (Scalar.int n).WellTyped
  | Key.str s => (Scalar.str s).WellTyped

/-- The serialized form of a list of key/value pairs: each key followed by
its value. -/
def encodePairs : List (Key × Scalar) → Bytes
  | [] => []
  | (k, v) :: ps => k.encode ++ (v.encode ++ encodePairs ps)

/-- The map that holds exactly the listed pairs, a later pair overwriting an
earlier one with the same key. -/
def pairsToMap (m : PhpSessionData) : List (Key × Scalar) → PhpSessionData
  | [] => m
  | (k, v) :: ps => pairsToMap (mapInsert m k.text v.toValue) ps

/-- The serialized form of a session: each entry is its name, `|` and its
serialized value. -/
def encodeEntries : List (Bytes × Scalar) → Bytes
  | [] => []
  | (name, v) :: es => name ++ VALUE_NAME_SEPARATOR :: (v.encode ++ encodeEntries es)

/-- The value of the last entry named `k` in a list of entries. -/
def lastValue (k : Bytes) : List (Bytes × Scalar) → Option PhpValue
  | [] => none
  | (name, v) :: es =>
    match lastValue k es with
    | some w => some w
    | none => if name = k then some v.toValue else none

/-- The session that holds exactly the listed entries, a later entry
overwriting an earlier one with the same name. -/
def entriesToMap (m : PhpSessionData) : List (Bytes × Scalar) → PhpSessionData
  | [] => m
  | (name, v) :: es => entriesToMap (mapInsert m name v.toValue) es

/-- The input of one array entry: `name|a:<L>:{<pairs>}` with `L` the number
of pairs. -/
def encodeArrayEntry (name : Bytes) (ps : List (Key × Scalar)) : Bytes :=
  name ++ ascii "|a:" ++ decimal ps.length ++ ascii ":\x7b" ++ encodePairs ps ++ ascii "\x7d"

/-- The members of an object as key/value pairs: every member name is a Str
key. -/
def memberPairs (members : List (Bytes × Scalar)) : List (Key × Scalar) :=
  members.map (fun p => (Key.str p.1, p.2))

/-- The input of one object entry:
`name|O:<len(c)>:"<c>":<L>:{<members>}` with `L` the number of members. -/
def encodeObjectEntry (name c : Bytes) (members : List (Bytes × Scalar)) : Bytes :=
  name ++ ascii "|O:" ++ decimal c.length ++ ascii ":\"" ++ c ++ ascii "\":" ++
    decimal members.length ++ ascii ":\x7b" ++ encodePairs (memberPairs members) ++ ascii "\x7d"

/-- The value of a big-endian string of decimal digits read after the value
`acc`. -/
def digitsValue (acc : Nat) (l : Bytes) : Nat := l.foldl (fun a c => a * 10 + (c - 48)) acc

/-- The loop of `Decode` as `decodeLoop`, with the state of the reader when
the loop ends: the third component of the result is the input that remains
unread when `Decode` returns. -/
def decodeLoopCursor (dv : Bytes → Outcome (PhpValue × Option GoError × Bytes)) :
    Nat → PhpSessionData → Bytes → Outcome (PhpSessionData × Option GoError × Bytes)
  | 0, _, _ => Outcome.outOfFuel
  | steps + 1, data, r =>
    match readUntil VALUE_NAME_SEPARATOR r with
    | (valueName, none, r1) =>
      match dv r1 with
      | Outcome.ret (value, none, r2) =>
        decodeLoopCursor dv steps (mapInsert data valueName value) r2
      | Outcome.ret (_, some _, r2) => Outcome.ret (data, some GoError.cannotReadVariable, r2)
      | Outcome.panic => Outcome.panic
      | Outcome.outOfFuel => Outcome.outOfFuel
    | (_, some _, r1) => Outcome.ret (data, none, r1)

/-- The call `NewPhpDecoder(phpSession).Decode()` with the input that remains
unread when it returns: the session, the error and the state of the reader. -/
def DecodeCursor (fuel : Nat) (phpSession : Bytes) :
    Outcome (PhpSessionData × Option GoError × Bytes) :=
  decodeLoopCursor (DecodeValue fuel) fuel [] phpSession

/-- A key as the scalar it is. -/
def Key.toScalar : Key → Scalar
  | Key.int n => Scalar.int n
  | Key.str s => Scalar.str s

/-- The serialized form of a sequence of scalars, one after the other. -/
def encodeScalars : List Scalar → Bytes
  | [] => []
  | v :: vs => v.encode ++ encodeScalars vs

/-- The scalars of a list of key/value pairs in the order of their serialized
form: each key followed by its value. -/
def pairScalars : List (Key × Scalar) → List Scalar
  | [] => []
  | (k, v) :: ps => k.toScalar :: v :: pairScalars ps

/-! ## Lemmas on the library calls -/

/-- `readUntil` on an input that holds the stop byte: the bytes before its
first occurrence, a nil error, and the input after that occurrence. -/
theorem readUntil_stop (stop : Nat) (pre rest : Bytes) (h : stop ∉ pre) :
    readUntil stop (pre ++ stop :: rest) = (pre, none, rest) := by
  induction pre with
  | nil => simp [readUntil]
  | cons a pre ih =>
    have ha : a ≠ stop := fun e => h (by simp [e])
    have hp : stop ∉ pre := fun e => h (by simp [e])
    simp [readUntil, ha, ih hp]

/-- `readUntil` on an input without the stop byte: everything is read and the
error is `io.EOF`. -/
theorem readUntil_no_stop (stop : Nat) (r : Bytes) (h : stop ∉ r) :
    readUntil stop r = (r, some GoError.eof, []) := by
  induction r with
  | nil => simp [readUntil]
  | cons a r ih =>
    have ha : a ≠ stop := fun e => h (by simp [e])
    have hp : stop ∉ r := fun e => h (by simp [e])
    simp [readUntil, ha, ih hp]

theorem readRune_ascii (c : Nat) (rest : Bytes) (h : c < 128) :
    readRune (c :: rest) = some (c, rest) := by
  simp [readRune, decodeRune, h]

theorem expect_ascii (e c : Nat) (rest : Bytes) (h : c < 128) :
    (expect e (c :: rest)).2 = rest := by
  rw [expect, readRune_ascii c rest h]
  by_cases hc : c = e <;> simp [hc]

theorem expect_nil (e : Nat) : (expect e []).2 = [] := by
  simp [expect, readRune]

theorem read_exact (s : Bytes) (c : Nat) (rest : Bytes) :
    read s.length (s ++ c :: rest) = (s, none, c :: rest) := by
  cases s <;> simp [read]

theorem digitsRev_digit (fuel n c : Nat) (h : c ∈ digitsRev fuel n) : 48 ≤ c ∧ c ≤ 57 := by
  induction fuel generalizing n with
  | zero => simp [digitsRev] at h
  | succ f ih =>
    rw [digitsRev] at h
    by_cases hn : n < 10
    · simp [hn] at h
      omega
    · simp [hn] at h
      rcases h with h | h
      · omega
      · exact ih _ h

theorem decimal_digit (n c : Nat) (h : c ∈ decimal n) : 48 ≤ c ∧ c ≤ 57 := by
  unfold decimal at h
  exact digitsRev_digit _ _ _ (List.mem_reverse.mp h)

theorem decimal_ne_nil (n : Nat) : decimal n ≠ [] := by
  unfold decimal
  rw [digitsRev]
  by_cases hn : n < 10 <;> simp [hn]

theorem digitsValue_ge (l : Bytes) (acc : Nat) : acc ≤ digitsValue acc l := by
  induction l generalizing acc with
  | nil => simp [digitsValue]
  | cons c cs ih =>
    have := ih (acc * 10 + (c - 48))
    simp only [digitsValue, List.foldl_cons] at this ⊢
    omega

theorem parseUintLoop_digits (l : Bytes) (acc : Nat) (hd : ∀ c ∈ l, 48 ≤ c ∧ c ≤ 57)
    (hv : digitsValue acc l ≤ maxUint64) : parseUintLoop l acc = (digitsValue acc l, none) := by
  induction l generalizing acc with
  | nil => simp [parseUintLoop, digitsValue]
  | cons c cs ih =>
    have hc := hd c (by simp)
    have hcs : ∀ d ∈ cs, 48 ≤ d ∧ d ≤ 57 := fun d hd' => hd d (by simp [hd'])
    have hstep : digitsValue acc (c :: cs) = digitsValue (acc * 10 + (c - 48)) cs := by
      simp [digitsValue]
    have hge := digitsValue_ge cs (acc * 10 + (c - 48))
    rw [hstep] at hv ⊢
    have hmax : maxUint64 = 18446744073709551615 := by norm_num [maxUint64]
    have h1 : ¬ (maxUint64 / 10 + 1 ≤ acc) := by rw [hmax]; omega
    have h2 : (acc * 10) % 2 ^ 64 = acc * 10 := by
      apply Nat.mod_eq_of_lt; rw [hmax] at hv; omega
    have h3 : (acc * 10 + (c - 48)) % 2 ^ 64 = acc * 10 + (c - 48) := by
      apply Nat.mod_eq_of_lt; rw [hmax] at hv; omega
    have h4 : ¬ (acc * 10 + (c - 48) < acc * 10 ∨ maxUint64 < acc * 10 + (c - 48)) := by
      omega
    rw [parseUintLoop]
    simp only [hc, and_self, if_true, h1, if_false, h2, h3, h4]
    exact ih _ hcs hv

theorem digitsValue_digitsRev (fuel n : Nat) (h : n < fuel) :
    (digitsRev fuel n).foldr (fun c a => a * 10 + (c - 48)) 0 = n := by
  induction fuel generalizing n with
  | zero => omega
  | succ f ih =>
    rw [digitsRev]
    by_cases hn : n < 10
    · simp [hn]
    · simp only [hn, if_false, List.foldr_cons]
      rw [ih (n / 10) (by omega)]
      omega

theorem digitsValue_decimal (n : Nat) : digitsValue 0 (decimal n) = n := by
  unfold digitsValue decimal
  rw [List.foldl_reverse]
  exact digitsValue_digitsRev (n + 1) n (by omega)

theorem parseUint_decimal (n : Nat) (h : n ≤ maxUint64) : parseUint (decimal n) = (n, none) := by
  have hne := decimal_ne_nil n
  have hp := parseUintLoop_digits (decimal n) 0 (decimal_digit n) (by rw [digitsValue_decimal]; exact h)
  rw [digitsValue_decimal] at hp
  unfold parseUint
  split
  · contradiction
  · exact hp

/-- `strconv.Atoi` reads back what `strconv.Itoa` writes, for every `int`. -/
theorem atoi_itoa (i : Int) (hlo : minInt ≤ i) (hhi : i ≤ maxInt) : atoi (itoa i) = (i, none) := by
  have hmax : maxUint64 = 18446744073709551615 := by norm_num [maxUint64]
  simp only [minInt, maxInt] at hlo hhi
  unfold itoa
  by_cases hneg : i < 0
  · simp only [hneg, if_true]
    have hu := parseUint_decimal i.natAbs (by rw [hmax]; omega)
    simp only [atoi, or_true, if_true, hu]
    have : ¬ ((9223372036854775808 : Nat) < i.natAbs) := by omega
    simp [this]
    rw [abs_of_neg hneg]
    omega
  · simp only [hneg, if_false]
    have hu := parseUint_decimal i.natAbs (by rw [hmax]; omega)
    obtain ⟨c, t, hct⟩ := List.exists_cons_of_ne_nil (decimal_ne_nil i.natAbs)
    have hc := decimal_digit i.natAbs c (by rw [hct]; simp)
    rw [hct] at hu ⊢
    have h43 : c ≠ 43 := by omega
    have h45 : c ≠ 45 := by omega
    simp only [atoi, h43, h45, or_self, if_false, hu]
    have : ¬ ((9223372036854775808 : Nat) ≤ i.natAbs) := by omega
    simp [this]
    omega

theorem itoa_no_stop (i : Int) (stop : Nat) (h : 58 ≤ stop) : stop ∉ itoa i := by
  unfold itoa
  intro hm
  by_cases hneg : i < 0
  · simp only [hneg, if_true, List.mem_cons] at hm
    rcases hm with hm | hm
    · omega
    · have := decimal_digit _ _ hm; omega
  · simp only [hneg, if_false] at hm
    have := decimal_digit _ _ hm; omega

theorem decimal_no_stop (n stop : Nat) (h : 58 ≤ stop) : stop ∉ decimal n := by
  intro hm
  have := decimal_digit _ _ hm; omega

theorem itoa_ofNat (n : Nat) : itoa (n : Int) = decimal n := by
  unfold itoa
  have : ¬ ((n : Int) < 0) := by omega
  simp [this]

/-! ## Lemmas on the decoder -/

/-- `decodeString` on `<len(s)>:"<s>"` followed by anything: the bytes `s`, a nil
error, and what follows the closing quote. -/
theorem decodeString_ok (s rest : Bytes) (h : (s.length : Int) ≤ maxInt) :
    decodeString (decimal s.length ++ 58 :: 34 :: (s ++ 34 :: rest)) =
      Outcome.ret (s, none, rest) := by
  have hlo : minInt ≤ (s.length : Int) := by simp only [minInt]; omega
  have hat := atoi_itoa (s.length : Int) hlo h
  rw [itoa_ofNat] at hat
  have hnn : ¬ ((s.length : Int) < 0) := by omega
  simp only [decodeString, TYPE_VALUE_SEPARATOR,
    readUntil_stop 58 (decimal s.length) _ (decimal_no_stop _ 58 (by omega)), hat,
    expect_ascii 34 34 _ (by omega), hnn, if_false, Int.toNat_ofNat, read_exact]
  simp

/-- `DecodeValue` on a serialized scalar followed by anything: the scalar, a nil
error, and what follows. -/
theorem DecodeValue_scalar (fuel : Nat) (v : Scalar) (rest : Bytes) (h : v.WellTyped) :
    DecodeValue (fuel + 1) (v.encode ++ rest) = Outcome.ret (v.toValue, none, rest) := by
  cases v with
  | null => rfl
  | bool b => cases b <;> rfl
  | int n =>
    have hr := readUntil_stop 59 (itoa n) rest (itoa_no_stop n 59 (by omega))
    have ha := atoi_itoa n h.1 h.2
    simp [Scalar.encode, Scalar.toValue, DecodeValue, readRune_ascii, expect_ascii,
      TYPE_VALUE_SEPARATOR, VALUES_SEPARATOR, hr, ha]
  | str s =>
    have hs := decodeString_ok s (59 :: rest) h
    simp [Scalar.encode, Scalar.toValue, DecodeValue, readRune_ascii, expect_ascii,
      TYPE_VALUE_SEPARATOR, VALUES_SEPARATOR, hs]

theorem incInt_lt (i : Int) (h : i < maxInt) : incInt i = i + 1 := by
  unfold incInt
  have : i ≠ maxInt := by omega
  simp [this]

theorem Key_decode (fuel : Nat) (k : Key) (rest : Bytes) (h : k.WellTyped) :
    DecodeValue (fuel + 1) (k.encode ++ rest) =
      Outcome.ret (match k with
        | Key.int n => PhpValue.int n
        | Key.str s => PhpValue.str s, none, rest) := by
  cases k with
  | int n => exact DecodeValue_scalar fuel (Scalar.int n) rest h
  | str s => exact DecodeValue_scalar fuel (Scalar.str s) rest h

/-- The loop of `decodeArray` over serialized pairs: while the counter stays
within the declared length, each pair costs one iteration and is stored. -/
theorem arrayLoop_pairs (fuel : Nat) (arrLen : Int) (harr : arrLen < maxInt)
    (ps : List (Key × Scalar)) (hps : ∀ p ∈ ps, p.1.WellTyped ∧ p.2.WellTyped)
    (steps : Nat) (i : Int) (m : PhpSessionData) (rest : Bytes)
    (hi : i + ps.length ≤ arrLen + 1) :
    arrayLoop (DecodeValue (fuel + 1)) arrLen (steps + ps.length) i
        (m, none, encodePairs ps ++ rest) =
      arrayLoop (DecodeValue (fuel + 1)) arrLen steps (i + ps.length)
        (pairsToMap m ps, none, rest) := by
  induction ps generalizing i m with
  | nil => simp [encodePairs, pairsToMap]
  | cons p ps ih =>
    obtain ⟨k, v⟩ := p
    have hk := (hps (k, v) (by simp)).1
    have hv := (hps (k, v) (by simp)).2
    have hps' : ∀ p ∈ ps, p.1.WellTyped ∧ p.2.WellTyped := fun p hp => hps p (by simp [hp])
    simp only [List.length_cons, Nat.cast_add, Nat.cast_one] at hi
    have hle : i ≤ arrLen := by omega
    have hinc := incInt_lt i (by omega)
    have hsteps : steps + (ps.length + 1) = (steps + ps.length) + 1 := by omega
    have hdk := Key_decode fuel k (v.encode ++ (encodePairs ps ++ rest)) hk
    have hdv := DecodeValue_scalar fuel v (encodePairs ps ++ rest) hv
    have hin : encodePairs ((k, v) :: ps) ++ rest =
        k.encode ++ (v.encode ++ (encodePairs ps ++ rest)) := by
      simp [encodePairs]
    rw [List.length_cons, hsteps, hin, arrayLoop]
    simp only [hle, if_true, hdk, hdv, hinc]
    have hnext := ih hps' (i + 1) (mapInsert m k.text v.toValue) (by omega)
    have hcast : i + ((ps.length + 1 : Nat) : Int) = i + 1 + (ps.length : Int) := by
      push_cast; omega
    rw [hcast, pairsToMap]
    cases k with
    | int n => exact hnext
    | str s => exact hnext

/-- The last iteration of the loop of `decodeArray`, entered with the counter
at the declared length on the closing `}` at the end of the input: it reads a
nil key and a nil value, stores nothing and sets the error. -/
theorem arrayLoop_close (fuel : Nat) (arrLen : Int) (harr : arrLen < maxInt) (steps : Nat)
    (m : PhpSessionData) :
    arrayLoop (DecodeValue (fuel + 1)) arrLen (steps + 2) arrLen (m, none, [125]) =
      Outcome.ret (m, some GoError.unexpectedKeyType, []) := by
  have hinc := incInt_lt arrLen harr
  have h1 : DecodeValue (fuel + 1) [125] = Outcome.ret (PhpValue.null, none, []) := rfl
  have h2 : DecodeValue (fuel + 1) [] = Outcome.ret (PhpValue.null, none, []) := rfl
  have hnot : ¬ (arrLen + 1 ≤ arrLen) := by omega
  rw [arrayLoop]
  simp only [le_refl, if_true, h1, h2, hinc]
  rw [arrayLoop]
  simp only [hnot, if_false]

/-- `decodeArray` on `<L>:{<pairs>}` at the end of the input: the map of the
pairs and the error that the extra iteration sets. -/
theorem decodeArray_pairs (fuel steps : Nat) (ps : List (Key × Scalar))
    (hps : ∀ p ∈ ps, p.1.WellTyped ∧ p.2.WellTyped) (hlen : (ps.length : Int) < maxInt) :
    decodeArray (DecodeValue (fuel + 1)) (steps + ps.length + 2)
        (decimal ps.length ++ 58 :: 123 :: (encodePairs ps ++ [125])) =
      Outcome.ret (pairsToMap [] ps, some GoError.unexpectedKeyType, []) := by
  have hlo : minInt ≤ (ps.length : Int) := by simp only [minInt]; omega
  have hat := atoi_itoa (ps.length : Int) hlo (by omega)
  rw [itoa_ofNat] at hat
  have hsteps : steps + ps.length + 2 = (steps + 2) + ps.length := by omega
  have hloop := arrayLoop_pairs fuel (ps.length : Int) hlen ps hps (steps + 2) 0 [] [125]
    (by omega)
  rw [zero_add] at hloop
  simp only [decodeArray, TYPE_VALUE_SEPARATOR,
    readUntil_stop 58 (decimal ps.length) _ (decimal_no_stop _ 58 (by omega)), hat,
    expect_ascii 123 123 _ (by omega), hsteps, hloop,
    arrayLoop_close fuel (ps.length : Int) hlen steps, expect_nil]

/-- One iteration of the loop of `Decode` on a scalar entry. -/
theorem decodeLoop_entry (fuel steps : Nat) (data : PhpSessionData) (name : Bytes) (v : Scalar)
    (rest : Bytes) (hname : VALUE_NAME_SEPARATOR ∉ name) (hv : v.WellTyped) :
    decodeLoop (DecodeValue (fuel + 1)) (steps + 1) data
        (name ++ VALUE_NAME_SEPARATOR :: (v.encode ++ rest)) =
      decodeLoop (DecodeValue (fuel + 1)) steps (mapInsert data name v.toValue) rest := by
  rw [decodeLoop]
  simp only [readUntil_stop VALUE_NAME_SEPARATOR name _ hname, DecodeValue_scalar fuel v rest hv]

theorem decodeLoop_eof (dv : Bytes → Outcome (PhpValue × Option GoError × Bytes)) (steps : Nat)
    (data : PhpSessionData) : decodeLoop dv (steps + 1) data [] = Outcome.ret (data, none) := rfl

/-- The loop of `Decode` on a list of scalar entries up to the end of the
input. -/
theorem decodeLoop_entries (fuel steps : Nat) (es : List (Bytes × Scalar))
    (hes : ∀ e ∈ es, VALUE_NAME_SEPARATOR ∉ e.1 ∧ e.2.WellTyped) (data : PhpSessionData) :
    decodeLoop (DecodeValue (fuel + 1)) (steps + es.length + 1) data (encodeEntries es) =
      Outcome.ret (entriesToMap data es, none) := by
  induction es generalizing data with
  | nil => exact decodeLoop_eof _ _ _
  | cons e es ih =>
    obtain ⟨name, v⟩ := e
    have he := hes (name, v) (by simp)
    have hes' : ∀ e ∈ es, VALUE_NAME_SEPARATOR ∉ e.1 ∧ e.2.WellTyped :=
      fun e h => hes e (by simp [h])
    have hsteps : steps + ((name, v) :: es).length + 1 = (steps + es.length + 1) + 1 := by
      simp only [List.length_cons]; omega
    rw [hsteps, encodeEntries, decodeLoop_entry fuel _ data name v _ he.1 he.2, entriesToMap]
    exact ih hes' _

/-- Lookup after a map assignment. -/
theorem mapLookup_mapInsert (m : PhpSessionData) (k : Bytes) (v : PhpValue) (k' : Bytes) :
    mapLookup (mapInsert m k v) k' = if k = k' then some v else mapLookup m k' := by
  induction m with
  | nil => simp [mapInsert, mapLookup]
  | cons p m ih =>
    obtain ⟨k0, v0⟩ := p
    by_cases h0 : k0 = k
    · subst h0
      by_cases h1 : k0 = k' <;> simp [mapInsert, mapLookup, h1]
    · by_cases h1 : k0 = k'
      · subst h1
        have : ¬ k = k0 := fun e => h0 e.symm
        simp [mapInsert, mapLookup, h0, this]
      · simp [mapInsert, mapLookup, h0, h1, ih]

theorem mapLookup_entriesToMap (es : List (Bytes × Scalar)) (m : PhpSessionData) (k : Bytes) :
    mapLookup (entriesToMap m es) k =
      match lastValue k es with
      | some w => some w
      | none => mapLookup m k := by
  induction es generalizing m with
  | nil => simp [entriesToMap, lastValue]
  | cons e es ih =>
    obtain ⟨name, v⟩ := e
    rw [entriesToMap, ih, lastValue]
    cases hl : lastValue k es with
    | some w => simp
    | none =>
      by_cases hn : name = k <;> simp [hn, mapLookup_mapInsert]

theorem lastValue_ne_none (k : Bytes) (es : List (Bytes × Scalar)) :
    lastValue k es ≠ none ↔ k ∈ es.map Prod.fst := by
  induction es with
  | nil => simp [lastValue]
  | cons e es ih =>
    obtain ⟨name, v⟩ := e
    rw [lastValue]
    cases hl : lastValue k es with
    | some w =>
      have : k ∈ es.map Prod.fst := ih.mp (by simp [hl])
      simp [this]
    | none =>
      have : k ∉ es.map Prod.fst := fun h => (ih.mpr h) hl
      by_cases hn : name = k
      · simp [hn]
      · have hn' : ¬ k = name := fun e => hn e.symm
        simp only [List.map_cons, List.mem_cons, hn', false_or, hn, if_false]
        simp [this]

theorem encodePairs_length (ps : List (Key × Scalar)) : ps.length ≤ (encodePairs ps).length := by
  induction ps with
  | nil => simp
  | cons p ps ih =>
    obtain ⟨k, v⟩ := p
    have hk : 1 ≤ k.encode.length := by
      cases k <;> simp [Key.encode, Scalar.encode]
    simp only [encodePairs, List.length_append, List.length_cons]
    omega

theorem memberPairs_wellTyped (members : List (Bytes × Scalar))
    (h : ∀ p ∈ members, (Scalar.str p.1).WellTyped ∧ p.2.WellTyped) :
    ∀ p ∈ memberPairs members, p.1.WellTyped ∧ p.2.WellTyped := by
  intro p hp
  simp only [memberPairs, List.mem_map] at hp
  obtain ⟨q, hq, rfl⟩ := hp
  exact h q hq

theorem DecodeValue_array (fuel : Nat) (ps : List (Key × Scalar))
    (hps : ∀ p ∈ ps, p.1.WellTyped ∧ p.2.WellTyped) (hlen : (ps.length : Int) < maxInt) :
    DecodeValue (fuel + ps.length + 3)
        (97 :: 58 :: (decimal ps.length ++ 58 :: 123 :: (encodePairs ps ++ [125]))) =
      Outcome.ret (PhpValue.array (pairsToMap [] ps), none, []) := by
  have hf : fuel + ps.length + 3 = (fuel + ps.length + 2) + 1 := by omega
  have hd := decodeArray_pairs (fuel + ps.length + 1) fuel ps hps hlen
  have hf2 : fuel + ps.length + 1 + 1 = fuel + ps.length + 2 := by omega
  rw [hf2] at hd
  rw [hf, DecodeValue]
  simp [readRune_ascii, expect_ascii, TYPE_VALUE_SEPARATOR, hd]

theorem DecodeValue_object (fuel : Nat) (c : Bytes) (ps : List (Key × Scalar))
    (hc : (c.length : Int) ≤ maxInt)
    (hps : ∀ p ∈ ps, p.1.WellTyped ∧ p.2.WellTyped) (hlen : (ps.length : Int) < maxInt) :
    DecodeValue (fuel + ps.length + 3)
        (79 :: 58 :: (decimal c.length ++ 58 :: 34 :: (c ++ 34 :: 58 ::
          (decimal ps.length ++ 58 :: 123 :: (encodePairs ps ++ [125]))))) =
      Outcome.ret (PhpValue.object c (pairsToMap [] ps), none, []) := by
  have hf : fuel + ps.length + 3 = (fuel + ps.length + 2) + 1 := by omega
  have hd := decodeArray_pairs (fuel + ps.length + 1) fuel ps hps hlen
  have hf2 : fuel + ps.length + 1 + 1 = fuel + ps.length + 2 := by omega
  rw [hf2] at hd
  have hs := decodeString_ok c
    (58 :: (decimal ps.length ++ 58 :: 123 :: (encodePairs ps ++ [125]))) hc
  rw [hf, DecodeValue]
  simp [readRune_ascii, expect_ascii, TYPE_VALUE_SEPARATOR, decodeObject, hs, hd]

/-- The loop of `Decode` on a last entry whose value takes the rest of the
input. -/
theorem decodeLoop_last (dv : Bytes → Outcome (PhpValue × Option GoError × Bytes))
    (steps : Nat) (data : PhpSessionData) (name r1 : Bytes) (value : PhpValue)
    (hname : VALUE_NAME_SEPARATOR ∉ name) (hdv : dv r1 = Outcome.ret (value, none, [])) :
    decodeLoop dv (steps + 2) data (name ++ VALUE_NAME_SEPARATOR :: r1) =
      Outcome.ret (mapInsert data name value, none) := by
  rw [decodeLoop]
  simp only [readUntil_stop VALUE_NAME_SEPARATOR name _ hname, hdv]
  exact decodeLoop_eof _ _ _

/-- C1: for every variable name without the byte `|` and every byte sequence
`s` (of a length that an `int` holds), `Decode` on
`name|s:<len(s)>:"<s>";` returns, for every step budget of at least 2, a nil
error and the session with the one entry `name ↦ s`, byte for byte. -/
theorem Decode_string_entry (fuel : Nat) (name s : Bytes) (hfuel : 2 ≤ fuel)
    (hname : VALUE_NAME_SEPARATOR ∉ name) (hlen : (s.length : Int) ≤ maxInt) :
    Decode fuel (name ++ ascii "|s:" ++ decimal s.length ++ ascii ":\"" ++ s ++ ascii "\";") =
      Outcome.ret ([(name, PhpValue.str s)], none) := by
  obtain ⟨n, rfl⟩ := Nat.exists_eq_add_of_le' hfuel
  have hin : name ++ ascii "|s:" ++ decimal s.length ++ ascii ":\"" ++ s ++ ascii "\";" =
      name ++ VALUE_NAME_SEPARATOR :: ((Scalar.str s).encode ++ []) := by
    simp [ascii, Scalar.encode, VALUE_NAME_SEPARATOR]
  rw [hin, Decode]
  exact decodeLoop_last _ n [] name _ _ hname (DecodeValue_scalar (n + 1) (Scalar.str s) [] hlen)

/-- C1 at scenario 1 of the specification, `name|s:5:"Alice";`, and at a
payload made of the bytes `|`, `:`, `;`, `{`, `}`, `"` and the non-UTF-8 byte
0xFF, with step budget 2. -/
theorem Decode_string_entry_witness :
    Decode 2 (ascii "name|s:5:\"Alice\";") =
      Outcome.ret ([(ascii "name", PhpValue.str (ascii "Alice"))], none) ∧
    Decode 2 (ascii "s|s:7:\"" ++ [124, 58, 59, 123, 125, 34, 255] ++ ascii "\";") =
      Outcome.ret ([(ascii "s", PhpValue.str [124, 58, 59, 123, 125, 34, 255])], none) :=
  ⟨Decode_string_entry 2 (ascii "name") (ascii "Alice") (by decide) (by decide) (by decide),
   Decode_string_entry 2 (ascii "s") [124, 58, 59, 123, 125, 34, 255] (by decide) (by decide)
    (by decide)⟩

/-- C2: for every list of key/value pairs with Int or Str keys and scalar
values, `Decode` on the single entry `name|a:<L>:{<pairs>}` (a Go string, `L` the
number of pairs) returns, for every step budget of at least `L + 3`, a nil
error and the session that maps `name` to the array holding exactly the listed
pairs: an Int key under its decimal text, a later pair overwriting an earlier
one with the same key. -/
theorem Decode_array_entry (fuel : Nat) (name : Bytes) (ps : List (Key × Scalar))
    (hfuel : ps.length + 3 ≤ fuel) (hname : VALUE_NAME_SEPARATOR ∉ name)
    (hps : ∀ p ∈ ps, p.1.WellTyped ∧ p.2.WellTyped)
    (hlen : ((encodeArrayEntry name ps).length : Int) ≤ maxInt) :
    Decode fuel (encodeArrayEntry name ps) =
      Outcome.ret ([(name, PhpValue.array (pairsToMap [] ps))], none) := by
  obtain ⟨n, rfl⟩ := Nat.exists_eq_add_of_le' hfuel
  have hin : encodeArrayEntry name ps = name ++ VALUE_NAME_SEPARATOR ::
      (97 :: 58 :: (decimal ps.length ++ 58 :: 123 :: (encodePairs ps ++ [125]))) := by
    simp [encodeArrayEntry, ascii, VALUE_NAME_SEPARATOR]
  have hL : (ps.length : Int) < maxInt := by
    have h1 := encodePairs_length ps
    rw [hin] at hlen
    simp only [List.length_append, List.length_cons, List.length_nil] at hlen
    push_cast at hlen
    omega
  have hd := DecodeValue_array n ps hps hL
  rw [hin, Decode]
  exact decodeLoop_last (DecodeValue (n + ps.length + 3)) (n + ps.length + 1) [] name _ _ hname hd

/-- C2 at scenario 5 of the specification,
`arr|a:2:{i:0;s:1:"a";i:1;s:1:"b";}`, with step budget 5. -/
theorem Decode_array_entry_witness :
    Decode 5 (ascii "arr|a:2:\x7bi:0;s:1:\"a\";i:1;s:1:\"b\";\x7d") =
      Outcome.ret ([(ascii "arr", PhpValue.array
        [(ascii "0", PhpValue.str (ascii "a")), (ascii "1", PhpValue.str (ascii "b"))])], none) :=
  Decode_array_entry 5 (ascii "arr")
    [(Key.int 0, Scalar.str (ascii "a")), (Key.int 1, Scalar.str (ascii "b"))]
    (by decide) (by decide) (by simp [Key.WellTyped, Scalar.WellTyped, minInt, maxInt, ascii])
    (by decide)

/-- C3: on `arr|a:0:{}n|i:42;` the array reader, whose loop runs while
`i <= arrLen`, reads one pair more than the declared 0 and so consumes `}n|i:`
and leaves `42;`: `Decode` returns the session with the entry `arr` alone, and
the entry `n` is lost. -/
theorem Decode_array_swallows_next_entry (n : Nat) :
    decodeArray (DecodeValue (n + 1)) (n + 2) (ascii "0:\x7b\x7dn|i:42;") =
      Outcome.ret ([], some GoError.unexpectedKeyType, ascii "42;") ∧
    Decode (n + 3) (ascii "arr|a:0:\x7b\x7dn|i:42;") =
      Outcome.ret ([(ascii "arr", PhpValue.array [])], none) :=
  ⟨rfl, rfl⟩

/-- C4: for every class name `c` and every list of members with Str keys and
scalar values, `Decode` on the single entry
`name|O:<len(c)>:"<c>":<L>:{<members>}` (a Go string, `L` the number of
members) returns, for every step budget of at least `L + 3`, a nil error and
the session that maps `name` to the object of class `c` whose members are
exactly the listed pairs. -/
theorem Decode_object_entry (fuel : Nat) (name c : Bytes) (members : List (Bytes × Scalar))
    (hfuel : members.length + 3 ≤ fuel) (hname : VALUE_NAME_SEPARATOR ∉ name)
    (hps : ∀ p ∈ members, (p.1.length : Int) ≤ maxInt ∧ p.2.WellTyped)
    (hlen : ((encodeObjectEntry name c members).length : Int) ≤ maxInt) :
    Decode fuel (encodeObjectEntry name c members) =
      Outcome.ret ([(name, PhpValue.object c (pairsToMap [] (memberPairs members)))], none) := by
  obtain ⟨n, rfl⟩ := Nat.exists_eq_add_of_le' hfuel
  have hml : (memberPairs members).length = members.length := by simp [memberPairs]
  have hin : encodeObjectEntry name c members = name ++ VALUE_NAME_SEPARATOR ::
      (79 :: 58 :: (decimal c.length ++ 58 :: 34 :: (c ++ 34 :: 58 ::
        (decimal members.length ++ 58 :: 123 ::
          (encodePairs (memberPairs members) ++ [125]))))) := by
    simp [encodeObjectEntry, ascii, VALUE_NAME_SEPARATOR]
  have h1 := encodePairs_length (memberPairs members)
  rw [hin] at hlen
  simp only [List.length_append, List.length_cons, List.length_nil] at hlen
  push_cast at hlen
  have hL : ((memberPairs members).length : Int) < maxInt := by omega
  have hc : (c.length : Int) ≤ maxInt := by omega
  have hd := DecodeValue_object n c (memberPairs members) hc
    (memberPairs_wellTyped members hps) hL
  rw [hin, Decode]
  rw [hml] at hd
  exact decodeLoop_last (DecodeValue (n + members.length + 3)) (n + members.length + 1) []
    name _ _ hname hd

/-- C4 at scenario 6 of the specification,
`u|O:4:"User":2:{s:2:"id";i:7;s:4:"name";s:3:"Bob";}`, with step budget 5. -/
theorem Decode_object_entry_witness :
    Decode 5 (ascii "u|O:4:\"User\":2:\x7bs:2:\"id\";i:7;s:4:\"name\";s:3:\"Bob\";\x7d") =
      Outcome.ret ([(ascii "u", PhpValue.object (ascii "User")
        [(ascii "id", PhpValue.int 7), (ascii "name", PhpValue.str (ascii "Bob"))])], none) :=
  Decode_object_entry 5 (ascii "u") (ascii "User")
    [(ascii "id", Scalar.int 7), (ascii "name", Scalar.str (ascii "Bob"))]
    (by decide) (by decide) (by simp [Scalar.WellTyped, minInt, maxInt, ascii]) (by decide)

/-- C5: for every list of entries whose names hold no `|` and whose values are
scalars, `Decode` on the concatenation of the encoded entries returns, for
every step budget above the number of entries, a nil error and a session that
maps every name to the value of its last occurrence and has no other key; the
empty input gives the empty session and a nil error. -/
theorem Decode_scalar_entries (fuel : Nat) (es : List (Bytes × Scalar))
    (hfuel : es.length + 1 ≤ fuel)
    (hes : ∀ e ∈ es, VALUE_NAME_SEPARATOR ∉ e.1 ∧ e.2.WellTyped) :
    Decode fuel (encodeEntries es) = Outcome.ret (entriesToMap [] es, none) ∧
    (∀ k, mapLookup (entriesToMap [] es) k = lastValue k es) ∧
    (∀ k, mapLookup (entriesToMap [] es) k ≠ none ↔ k ∈ es.map Prod.fst) ∧
    Decode fuel [] = Outcome.ret ([], none) := by
  obtain ⟨n, rfl⟩ := Nat.exists_eq_add_of_le' hfuel
  have hlook : ∀ k, mapLookup (entriesToMap [] es) k = lastValue k es := by
    intro k
    rw [mapLookup_entriesToMap]
    cases lastValue k es <;> simp [mapLookup]
  refine ⟨?_, hlook, ?_, ?_⟩
  · have h := decodeLoop_entries (n + es.length) n es hes []
    rw [Decode]
    exact h
  · intro k
    rw [hlook]
    exact lastValue_ne_none k es
  · exact decodeLoop_eof _ (n + es.length) []

/-- C5 at the three entries `a|i:1;b|s:1:"x";a|N;`, the name `a` being
repeated: the later value of `a` is the one kept. -/
theorem Decode_scalar_entries_witness :
    Decode 4 (ascii "a|i:1;b|s:1:\"x\";a|N;") =
      Outcome.ret ([(ascii "a", PhpValue.null), (ascii "b", PhpValue.str (ascii "x"))], none) :=
  (Decode_scalar_entries 4
    [(ascii "a", Scalar.int 1), (ascii "b", Scalar.str (ascii "x")), (ascii "a", Scalar.null)]
    (by decide)
    (by simp [Scalar.WellTyped, minInt, maxInt, ascii, VALUE_NAME_SEPARATOR])).1

/-- C6: for every 64-bit signed integer `n` and every name without the byte
`|`, `Decode` on `name|i:<decimal n>;` returns, for every step budget of at
least 2, a nil error and the session that maps `name` to the integer `n`. -/
theorem Decode_int_entry (fuel : Nat) (name : Bytes) (n : Int) (hfuel : 2 ≤ fuel)
    (hname : VALUE_NAME_SEPARATOR ∉ name) (hlo : minInt ≤ n) (hhi : n ≤ maxInt) :
    Decode fuel (name ++ ascii "|i:" ++ itoa n ++ ascii ";") =
      Outcome.ret ([(name, PhpValue.int n)], none) := by
  obtain ⟨m, rfl⟩ := Nat.exists_eq_add_of_le' hfuel
  have hin : name ++ ascii "|i:" ++ itoa n ++ ascii ";" =
      name ++ VALUE_NAME_SEPARATOR :: ((Scalar.int n).encode ++ []) := by
    simp [ascii, Scalar.encode, VALUE_NAME_SEPARATOR]
  rw [hin, Decode]
  exact decodeLoop_last _ m [] name _ _ hname
    (DecodeValue_scalar (m + 1) (Scalar.int n) [] ⟨hlo, hhi⟩)

/-- C6 at scenario 2 of the specification, `n|i:42;`, and at the smallest
64-bit integer. -/
theorem Decode_int_entry_witness :
    Decode 2 (ascii "n|i:42;") = Outcome.ret ([(ascii "n", PhpValue.int 42)], none) ∧
    Decode 2 (ascii "n|i:-9223372036854775808;") =
      Outcome.ret ([(ascii "n", PhpValue.int (-9223372036854775808))], none) := by
  have hin : ascii "n|i:-9223372036854775808;" =
      ascii "n" ++ ascii "|i:" ++ itoa (-9223372036854775808) ++ ascii ";" := by decide
  rw [hin]
  exact ⟨Decode_int_entry 2 (ascii "n") 42 (by decide) (by decide) (by decide) (by decide),
    Decode_int_entry 2 (ascii "n") (-9223372036854775808) (by decide) (by decide) (by decide)
      (by decide)⟩

/-- C7: for every step budget of at least 1, `DecodeValue` on an input that
starts with `b:1;` returns the boolean true and a nil error, on one that starts
with `b:0;` the boolean false and a nil error, having read exactly these four
bytes; and `Decode` on `flag|b:1;` returns the session with `flag ↦ true` and
a nil error. -/
theorem DecodeValue_bool_success (n : Nat) (rest : Bytes) :
    DecodeValue (n + 1) (ascii "b:1;" ++ rest) =
      Outcome.ret (PhpValue.bool true, none, rest) ∧
    DecodeValue (n + 1) (ascii "b:0;" ++ rest) =
      Outcome.ret (PhpValue.bool false, none, rest) ∧
    Decode (n + 2) (ascii "flag|b:1;") =
      Outcome.ret ([(ascii "flag", PhpValue.bool true)], none) :=
  ⟨rfl, rfl, rfl⟩

/-- C8: for every step budget of at least 1, `DecodeValue` on an input that
starts with `N;` reads exactly these two bytes and returns the nil value with a
nil error; `Decode` on `x|N;` returns a session in which the key `x` is bound
to the nil value; and a scalar entry that follows `x|N;` is decoded as well. -/
theorem DecodeValue_null_first_class (n : Nat) (rest : Bytes) :
    DecodeValue (n + 1) (ascii "N;" ++ rest) = Outcome.ret (PhpValue.null, none, rest) ∧
    Decode (n + 2) (ascii "x|N;") = Outcome.ret ([(ascii "x", PhpValue.null)], none) ∧
    mapLookup [(ascii "x", PhpValue.null)] (ascii "x") = some PhpValue.null ∧
    (∀ (name : Bytes) (v : Scalar), VALUE_NAME_SEPARATOR ∉ name → v.WellTyped →
      Decode (n + 3) (ascii "x|N;" ++ name ++ VALUE_NAME_SEPARATOR :: v.encode) =
        Outcome.ret (mapInsert [(ascii "x", PhpValue.null)] name v.toValue, none)) := by
  refine ⟨rfl, rfl, rfl, ?_⟩
  intro name v hname hv
  have h := decodeLoop_entries (n + 2) n [(ascii "x", Scalar.null), (name, v)]
    (by
      intro e he
      simp only [List.mem_cons, List.mem_singleton, List.not_mem_nil, or_false] at he
      rcases he with rfl | rfl
      · exact ⟨by decide, trivial⟩
      · exact ⟨hname, hv⟩) []
  have hin : ascii "x|N;" ++ name ++ VALUE_NAME_SEPARATOR :: v.encode =
      encodeEntries [(ascii "x", Scalar.null), (name, v)] := by
    simp [encodeEntries, ascii, Scalar.encode, VALUE_NAME_SEPARATOR]
  rw [hin, Decode]
  exact h

/-- C9: on `a|i:1;x|s:5:"Al` the string reader reports that the content is
cut short, `DecodeValue` drops that error, and `Decode` returns a nil error and
a session that binds the failing variable `x` to the empty string next to
`a ↦ 1`. -/
theorem Decode_truncated_string_unreported (n : Nat) :
    decodeString (ascii "5:\"Al") =
      Outcome.ret ([], some GoError.cannotReadStringContent, []) ∧
    DecodeValue (n + 1) (ascii "s:5:\"Al") = Outcome.ret (PhpValue.str [], none, []) ∧
    Decode (n + 3) (ascii "a|i:1;x|s:5:\"Al") =
      Outcome.ret ([(ascii "a", PhpValue.int 1), (ascii "x", PhpValue.str [])], none) :=
  ⟨rfl, rfl, rfl⟩

theorem leadInfo_some (s0 sz lo hi : Nat) (h : leadInfo s0 = some (sz, lo, hi)) :
    128 ≤ lo ∧ hi ≤ 191 ∧
    ((sz = 2 ∧ 0xC2 ≤ s0 ∧ s0 ≤ 0xDF) ∨
     (sz = 3 ∧ ((s0 = 0xE0 ∧ lo = 0xA0) ∨ (0xE1 ≤ s0 ∧ s0 ≤ 0xEF))) ∨
     (sz = 4 ∧ ((s0 = 0xF0 ∧ lo = 0x90) ∨ (0xF1 ≤ s0 ∧ s0 ≤ 0xF4)))) := by
  unfold leadInfo inRange at h
  simp only [Bool.and_eq_true, decide_eq_true_eq] at h
  split_ifs at h <;>
    simp only [Option.some.injEq, Prod.mk.injEq] at h <;>
    omega

/-- The rune that `utf8.DecodeRuneInString` returns is the first byte or is not
ASCII. -/
theorem decodeRune_fst (s0 : Nat) (t : Bytes) :
    (decodeRune s0 t).1 = s0 ∨ 128 ≤ (decodeRune s0 t).1 := by
  by_cases h : s0 < 128
  · left; simp [decodeRune, h]
  · right
    cases hl : leadInfo s0 with
    | none => simp [decodeRune, h, hl, RuneError]
    | some info =>
      obtain ⟨sz, lo, hi⟩ := info
      have hs := leadInfo_some s0 sz lo hi hl
      rcases t with _ | ⟨s1, _ | ⟨s2, _ | ⟨s3, t3⟩⟩⟩ <;>
        simp only [decodeRune, h, hl, if_false, inRange, RuneError, Bool.not_eq_true',
          Bool.and_eq_false_iff, decide_eq_false_iff_not] <;>
        split_ifs <;> simp only [] <;> omega

/-- C10, as amended: for every input whose first byte is none of the tags
`N`, `b`, `i`, `d`, `s`, `a`, `O`, `DecodeValue` returns, for every step budget
of at least 1, the nil value and a nil error. -/
theorem DecodeValue_unknown_tag (n : Nat) (b : Nat) (rest : Bytes)
    (hb : b ∉ ascii "NbidsaO") :
    ∃ r, DecodeValue (n + 1) (b :: rest) = Outcome.ret (PhpValue.null, none, r) := by
  have hmem : b ≠ 78 ∧ b ≠ 98 ∧ b ≠ 105 ∧ b ≠ 100 ∧ b ≠ 115 ∧ b ≠ 97 ∧ b ≠ 79 := by
    have h : ascii "NbidsaO" = [78, 98, 105, 100, 115, 97, 79] := by decide
    rw [h] at hb
    simpa using hb
  have ht := decodeRune_fst b rest
  have h98 : (decodeRune b rest).1 ≠ 98 := by omega
  have h105 : (decodeRune b rest).1 ≠ 105 := by omega
  have h100 : (decodeRune b rest).1 ≠ 100 := by omega
  have h115 : (decodeRune b rest).1 ≠ 115 := by omega
  have h97 : (decodeRune b rest).1 ≠ 97 := by omega
  have h79 : (decodeRune b rest).1 ≠ 79 := by omega
  refine ⟨(expect TYPE_VALUE_SEPARATOR ((b :: rest).drop (decodeRune b rest).2)).2, ?_⟩
  rw [DecodeValue]
  simp only [readRune, h98, h105, h100, h115, h97, h79, if_false]

/-- C10, as amended, at the input `Z:1;`. -/
theorem DecodeValue_unknown_tag_witness :
    ∃ r, DecodeValue 1 (ascii "Z:1;") = Outcome.ret (PhpValue.null, none, r) :=
  DecodeValue_unknown_tag 0 90 (ascii ":1;") (by decide)

/-- C10, as the claim states it, fails: on `Z:1;`, whose first byte is no
tag, `DecodeValue` returns the nil value and a nil error for every step budget
of at least 1, and for no step budget does it return a non-nil error. -/
theorem DecodeValue_unknown_tag_returns_nil_error :
    (∀ n, DecodeValue (n + 1) (ascii "Z:1;") =
      Outcome.ret (PhpValue.null, none, ascii "1;")) ∧
    ¬ ∃ fuel v e r, DecodeValue fuel (ascii "Z:1;") = Outcome.ret (v, some e, r) := by
  refine ⟨fun _ => rfl, ?_⟩
  rintro ⟨fuel, v, e, r, h⟩
  cases fuel with
  | zero => simp [DecodeValue] at h
  | succ n =>
    have h2 : DecodeValue (n + 1) (ascii "Z:1;") =
        Outcome.ret (PhpValue.null, none, ascii "1;") := rfl
    rw [h2] at h
    simp at h

/-! ## Further properties of the reader, of the array reader and of `Decode` -/

/-- A byte that occurs in a string splits it at its first occurrence. -/
theorem mem_split_first (stop : Nat) (r : Bytes) (h : stop ∈ r) :
    ∃ pre rest, r = pre ++ stop :: rest ∧ stop ∉ pre := by
  induction r with
  | nil => simp at h
  | cons a r ih =>
    by_cases ha : a = stop
    · exact ⟨[], r, by simp [ha], by simp⟩
    · have hr : stop ∈ r := by
        rcases List.mem_cons.mp h with h | h
        · exact absurd h.symm ha
        · exact h
      obtain ⟨pre, rest, hrr, hpre⟩ := ih hr
      refine ⟨a :: pre, rest, by simp [hrr], ?_⟩
      intro hm
      rcases List.mem_cons.mp hm with h | h
      · exact ha h.symm
      · exact hpre h

/-- C16: `readUntil(stop)` on the remaining input `r`: when `stop` occurs in
`r`, the result is the bytes of `r` before its first occurrence with a nil
error, and the input that remains starts right after that occurrence; when
`stop` does not occur in `r`, the error is non-nil and nothing remains. -/
theorem readUntil_first_occurrence (stop : Nat) (r : Bytes) :
    (stop ∈ r → ∃ pre rest, r = pre ++ stop :: rest ∧ stop ∉ pre ∧
      readUntil stop r = (pre, none, rest)) ∧
    (stop ∉ r → (readUntil stop r).2.1 ≠ none ∧ (readUntil stop r).2.2 = []) := by
  constructor
  · intro h
    obtain ⟨pre, rest, hr, hpre⟩ := mem_split_first stop r h
    exact ⟨pre, rest, hr, hpre, by rw [hr]; exact readUntil_stop stop pre rest hpre⟩
  · intro h
    rw [readUntil_no_stop stop r h]
    simp

/-- C17: `expect(b)` reads one rune and returns a non-nil error when the input
is exhausted and when the rune read EQUALS `b`; when the rune read differs from
`b` it returns nil. On the input `:x`, `expect(':')` returns an error; on `;x`
it returns nil. -/
theorem expect_inverted :
    (∀ (b c : Nat) (rest : Bytes), c < 128 →
      expect b (c :: rest) = (if c = b then some GoError.readButExpected else none, rest)) ∧
    (∀ b : Nat, expect b [] = (some GoError.cannotReadExpected, [])) ∧
    expect 58 (ascii ":x") = (some GoError.readButExpected, ascii "x") ∧
    expect 58 (ascii ";x") = (none, ascii "x") := by
  refine ⟨?_, fun _ => rfl, rfl, rfl⟩
  intro b c rest hc
  rw [expect, readRune_ascii c rest hc]
  by_cases h : c = b <;> simp [h]

/-- C14: on a string whose length prefix is a negative decimal the string
reader allocates its buffer with that length and panics: `decodeString` on
`<i>:...` panics for every negative `int` `i`, and so do `DecodeValue` on
`s:-1:"";` and `Decode` on `x|s:-1:"";`, for every step budget of at least
1. -/
theorem decodeString_negative_length_panics (n : Nat) :
    (∀ (i : Int) (rest : Bytes), minInt ≤ i → i < 0 →
      decodeString (itoa i ++ TYPE_VALUE_SEPARATOR :: rest) = Outcome.panic) ∧
    DecodeValue (n + 1) (ascii "s:-1:\"\";") = Outcome.panic ∧
    Decode (n + 1) (ascii "x|s:-1:\"\";") = Outcome.panic := by
  refine ⟨?_, rfl, rfl⟩
  intro i rest hlo hneg
  have hhi : i ≤ maxInt := by simp only [maxInt]; omega
  have hr := readUntil_stop TYPE_VALUE_SEPARATOR (itoa i) rest
    (itoa_no_stop i TYPE_VALUE_SEPARATOR (by simp [TYPE_VALUE_SEPARATOR]))
  simp only [decodeString, hr, atoi_itoa i hlo hhi, hneg, if_true]

/-- C15: the array reader accepts a negative length: for every negative
`int` `i`, `decodeArray` on `<i>:...` does not run its loop and returns an
empty array with a nil error, for every step budget of at least 1 and whatever
`DecodeValue` does; so it does on `-1:{}`. -/
theorem decodeArray_negative_length_accepted
    (dv : Bytes → Outcome (PhpValue × Option GoError × Bytes)) (n : Nat) :
    (∀ (i : Int) (rest : Bytes), minInt ≤ i → i < 0 →
      decodeArray dv (n + 1) (itoa i ++ TYPE_VALUE_SEPARATOR :: rest) =
        Outcome.ret ([], none, (expect 125 (expect 123 rest).2).2)) ∧
    decodeArray dv (n + 1) (ascii "-1:\x7b\x7d") = Outcome.ret ([], none, []) := by
  refine ⟨?_, rfl⟩
  intro i rest hlo hneg
  have hhi : i ≤ maxInt := by simp only [maxInt]; omega
  have hr := readUntil_stop TYPE_VALUE_SEPARATOR (itoa i) rest
    (itoa_no_stop i TYPE_VALUE_SEPARATOR (by simp [TYPE_VALUE_SEPARATOR]))
  have hnot : ¬ (0 ≤ i) := by omega
  simp only [decodeArray, hr, atoi_itoa i hlo hhi, arrayLoop, hnot, if_false]

/-- A bound on the number of decimal digits of a number. -/
theorem digitsRev_length (fuel n : Nat) : (digitsRev fuel n).length ≤ n / 2 + 1 := by
  induction fuel generalizing n with
  | zero => simp [digitsRev]
  | succ f ih =>
    rw [digitsRev]
    by_cases hn : n < 10
    · simp [hn]
    · have := ih (n / 10)
      simp only [hn, if_false, List.length_cons]
      omega

/-- The length of the decimal text of an `int` is an `int`. -/
theorem itoa_length (i : Int) (hlo : minInt ≤ i) (hhi : i ≤ maxInt) :
    ((itoa i).length : Int) ≤ maxInt := by
  simp only [minInt, maxInt] at hlo hhi ⊢
  have h := digitsRev_length (i.natAbs + 1) i.natAbs
  unfold itoa decimal
  by_cases hneg : i < 0
  · simp only [hneg, if_true, List.length_cons, List.length_reverse]
    push_cast
    omega
  · simp only [hneg, if_false, List.length_reverse]
    omega

/-- C13, as amended: the array reader stores an Int key under its decimal
text, so an Int key `n` and a Str key whose text is the decimal text of `n`
are the same key: `DecodeValue` on the array of the two pairs `n ↦ v` and
`"<decimal n>" ↦ w` at the end of the input returns, for every step budget of
at least 5, the mapping with the single entry `"<decimal n>" ↦ w`. -/
theorem DecodeValue_int_key_stringified (fuel : Nat) (n : Int) (v w : Scalar)
    (hlo : minInt ≤ n) (hhi : n ≤ maxInt) (hv : v.WellTyped) (hw : w.WellTyped) :
    DecodeValue (fuel + 5)
        (ascii "a:2:\x7b" ++ (Key.int n).encode ++ v.encode ++ (Key.str (itoa n)).encode ++
          w.encode ++ ascii "\x7d") =
      Outcome.ret (PhpValue.array [(itoa n, w.toValue)], none, []) := by
  have hps : ∀ p ∈ [(Key.int n, v), (Key.str (itoa n), w)], p.1.WellTyped ∧ p.2.WellTyped := by
    intro p hp
    simp only [List.mem_cons, List.mem_singleton, List.not_mem_nil, or_false] at hp
    rcases hp with rfl | rfl
    · exact ⟨⟨hlo, hhi⟩, hv⟩
    · exact ⟨itoa_length n hlo hhi, hw⟩
  have h := DecodeValue_array fuel [(Key.int n, v), (Key.str (itoa n), w)] hps (by simp [maxInt])
  have hin : ascii "a:2:\x7b" ++ (Key.int n).encode ++ v.encode ++ (Key.str (itoa n)).encode ++
      w.encode ++ ascii "\x7d" =
      97 :: 58 :: (decimal [(Key.int n, v), (Key.str (itoa n), w)].length ++ 58 :: 123 ::
        (encodePairs [(Key.int n, v), (Key.str (itoa n), w)] ++ [125])) := by
    have hd : decimal 2 = [50] := by decide
    simp [ascii, encodePairs, hd]
  have hm : pairsToMap [] [(Key.int n, v), (Key.str (itoa n), w)] = [(itoa n, w.toValue)] := by
    simp [pairsToMap, mapInsert, Key.text]
  rw [hin, ← hm]
  exact h

/-- C13, as amended, at the input `a:2:{i:1;s:1:"a";s:1:"1";s:1:"b";}`. -/
theorem DecodeValue_int_key_stringified_witness :
    DecodeValue 5 (ascii "a:2:\x7bi:1;s:1:\"a\";s:1:\"1\";s:1:\"b\";\x7d") =
      Outcome.ret (PhpValue.array [(ascii "1", PhpValue.str (ascii "b"))], none, []) :=
  DecodeValue_int_key_stringified 0 1 (Scalar.str (ascii "a")) (Scalar.str (ascii "b"))
    (by decide) (by decide) (by simp [Scalar.WellTyped, maxInt, ascii])
    (by simp [Scalar.WellTyped, maxInt, ascii])

/-- C13, as the claim states it, fails: on
`a:2:{i:1;s:1:"a";s:1:"1";s:1:"b";}` `DecodeValue` returns, for every step
budget of at least 5, the mapping with the one entry `"1" ↦ "b"`, and for no
step budget a mapping with two entries. -/
theorem DecodeValue_int_and_str_key_collide :
    (∀ n, DecodeValue (n + 5) (ascii "a:2:\x7bi:1;s:1:\"a\";s:1:\"1\";s:1:\"b\";\x7d") =
      Outcome.ret (PhpValue.array [(ascii "1", PhpValue.str (ascii "b"))], none, [])) ∧
    ¬ ∃ fuel m e r, DecodeValue fuel (ascii "a:2:\x7bi:1;s:1:\"a\";s:1:\"1\";s:1:\"b\";\x7d") =
        Outcome.ret (PhpValue.array m, e, r) ∧ m.length = 2 := by
  have hret : ∀ n, DecodeValue (n + 5) (ascii "a:2:\x7bi:1;s:1:\"a\";s:1:\"1\";s:1:\"b\";\x7d") =
      Outcome.ret (PhpValue.array [(ascii "1", PhpValue.str (ascii "b"))], none, []) :=
    fun _ => rfl
  refine ⟨hret, ?_⟩
  rintro ⟨fuel, m, e, r, h, hm⟩
  have hlow : ∀ fuel, fuel < 5 →
      DecodeValue fuel (ascii "a:2:\x7bi:1;s:1:\"a\";s:1:\"1\";s:1:\"b\";\x7d") =
        Outcome.outOfFuel := by
    intro fuel hf
    interval_cases fuel <;> rfl
  by_cases hf : fuel < 5
  · rw [hlow fuel hf] at h
    simp at h
  · obtain ⟨n, rfl⟩ := Nat.exists_eq_add_of_le' (Nat.le_of_not_lt hf)
    rw [hret n] at h
    simp only [Outcome.ret.injEq, Prod.mk.injEq, PhpValue.array.injEq] at h
    rw [← h.1] at hm
    simp at hm

/-- The error that `DecodeValue` returns is nil whenever it returns. -/
theorem DecodeValue_ret_none (fuel : Nat) (r : Bytes) (v : PhpValue) (e : Option GoError)
    (r' : Bytes) (h : DecodeValue fuel r = Outcome.ret (v, e, r')) : e = none := by
  cases fuel with
  | zero => simp [DecodeValue] at h
  | succ n =>
    rw [DecodeValue] at h
    split at h
    · simp only [Outcome.ret.injEq, Prod.mk.injEq] at h
      exact h.2.1.symm
    · simp only [] at h
      split_ifs at h
      all_goals (try split at h)
      all_goals first
        | (simp only [Outcome.ret.injEq, Prod.mk.injEq] at h; exact h.2.1.symm)
        | (exact absurd h (by simp))

/-- When `readUntil` fails, nothing of the input remains. -/
theorem readUntil_err_rest (stop : Nat) (r a r1 : Bytes) (e : GoError)
    (h : readUntil stop r = (a, some e, r1)) : r1 = [] := by
  induction r generalizing a with
  | nil =>
    simp only [readUntil, Prod.mk.injEq] at h
    exact h.2.2.symm
  | cons c r ih =>
    rw [readUntil] at h
    by_cases hc : c = stop
    · simp [hc] at h
    · simp only [hc, if_false] at h
      rcases hr : readUntil stop r with ⟨a', e', r'⟩
      rw [hr] at h
      simp only [Prod.mk.injEq] at h
      obtain ⟨_, he, hr1⟩ := h
      subst he hr1
      exact ih a' hr

/-- The loop of `Decode` returns a nil error when `DecodeValue` only returns
nil errors. -/
theorem decodeLoop_ret_none (dv : Bytes → Outcome (PhpValue × Option GoError × Bytes))
    (hdv : ∀ r v e r', dv r = Outcome.ret (v, e, r') → e = none)
    (steps : Nat) (data : PhpSessionData) (r : Bytes) (session : PhpSessionData)
    (e : Option GoError) (h : decodeLoop dv steps data r = Outcome.ret (session, e)) :
    e = none := by
  induction steps generalizing data r with
  | zero => simp [decodeLoop] at h
  | succ n ih =>
    rw [decodeLoop] at h
    split at h
    · split at h
      · exact ih _ _ h
      · rename_i hd
        exact absurd (hdv _ _ _ _ hd) (by simp)
      · simp at h
      · simp at h
    · simp only [Outcome.ret.injEq, Prod.mk.injEq] at h
      exact h.2.symm

/-- When the loop of `Decode` returns a nil error, the reader is at the end of
the input. -/
theorem decodeLoopCursor_of_decodeLoop
    (dv : Bytes → Outcome (PhpValue × Option GoError × Bytes))
    (steps : Nat) (data : PhpSessionData) (r : Bytes) (session : PhpSessionData)
    (h : decodeLoop dv steps data r = Outcome.ret (session, none)) :
    decodeLoopCursor dv steps data r = Outcome.ret (session, none, []) := by
  induction steps generalizing data r with
  | zero => simp [decodeLoop] at h
  | succ n ih =>
    rw [decodeLoop] at h
    rw [decodeLoopCursor]
    rcases hr : readUntil VALUE_NAME_SEPARATOR r with ⟨name, e, r1⟩
    rw [hr] at h
    cases e with
    | none =>
      simp only [] at h ⊢
      rcases hd : dv r1 with ⟨v, e2, r2⟩ | _ | _
      · rw [hd] at h
        cases e2 with
        | none => exact ih _ _ h
        | some e3 => simp at h
      · rw [hd] at h; simp at h
      · rw [hd] at h; simp at h
    | some e1 =>
      simp only [Outcome.ret.injEq, Prod.mk.injEq] at h
      have hr1 := readUntil_err_rest _ _ _ _ _ hr
      subst hr1
      rw [h.1]

/-- The loop of `Decode` with the state of the reader returns what the loop of
`Decode` returns. -/
theorem decodeLoop_of_decodeLoopCursor
    (dv : Bytes → Outcome (PhpValue × Option GoError × Bytes))
    (steps : Nat) (data : PhpSessionData) (r : Bytes) (session : PhpSessionData)
    (e : Option GoError) (r' : Bytes)
    (h : decodeLoopCursor dv steps data r = Outcome.ret (session, e, r')) :
    decodeLoop dv steps data r = Outcome.ret (session, e) := by
  induction steps generalizing data r with
  | zero => simp [decodeLoopCursor] at h
  | succ n ih =>
    rw [decodeLoopCursor] at h
    rw [decodeLoop]
    rcases hr : readUntil VALUE_NAME_SEPARATOR r with ⟨name, e0, r1⟩
    rw [hr] at h
    cases e0 with
    | none =>
      simp only [] at h ⊢
      rcases hd : dv r1 with ⟨v, e2, r2⟩ | _ | _
      · rw [hd] at h
        cases e2 with
        | none => exact ih _ _ h
        | some e3 =>
          simp only [Outcome.ret.injEq, Prod.mk.injEq] at h ⊢
          exact ⟨h.1, h.2.1⟩
      · rw [hd] at h; simp at h
      · rw [hd] at h; simp at h
    | some e1 =>
      simp only [Outcome.ret.injEq, Prod.mk.injEq] at h ⊢
      exact ⟨h.1, h.2.1⟩

/-- C12: for every input on which `Decode` returns a nil error, the reader of
the decoder is at the end of the input when `Decode` returns: no byte remains
unread. -/
theorem Decode_cursor_at_end (fuel : Nat) (input : Bytes) (session : PhpSessionData)
    (h : Decode fuel input = Outcome.ret (session, none)) :
    DecodeCursor fuel input = Outcome.ret (session, none, []) :=
  decodeLoopCursor_of_decodeLoop (DecodeValue fuel) fuel [] input session h

/-- C12 at the input `arr|a:0:{}n|i:42;`, on which the array reader runs past
the closing brace: `Decode` returns with the reader at the end of the input. -/
theorem Decode_cursor_at_end_witness :
    DecodeCursor 3 (ascii "arr|a:0:\x7b\x7dn|i:42;") =
      Outcome.ret ([(ascii "arr", PhpValue.array [])], none, []) :=
  Decode_cursor_at_end 3 (ascii "arr|a:0:\x7b\x7dn|i:42;") [(ascii "arr", PhpValue.array [])] rfl

/-- C19: whenever `DecodeValue` returns, the error it returns is nil, and
whenever `Decode` returns, the error it returns is nil; so a bad integer, a bad
string length, a bad array length and a bad class name length are all decoded
without an error. -/
theorem errors_never_reported :
    (∀ (fuel : Nat) (input : Bytes) (v : PhpValue) (e : Option GoError) (r : Bytes),
      DecodeValue fuel input = Outcome.ret (v, e, r) → e = none) ∧
    (∀ (fuel : Nat) (input : Bytes) (session : PhpSessionData) (e : Option GoError),
      Decode fuel input = Outcome.ret (session, e) → e = none) ∧
    (∀ n, DecodeValue (n + 1) (ascii "i:abc;") = Outcome.ret (PhpValue.int 0, none, [])) ∧
    (∀ n, DecodeValue (n + 1) (ascii "s:x:\"\";") =
      Outcome.ret (PhpValue.str [], none, ascii "\";")) ∧
    (∀ n, DecodeValue (n + 1) (ascii "a:x:\x7b\x7d") =
      Outcome.ret (PhpValue.array [], none, ascii "\x7b\x7d")) ∧
    (∀ n, DecodeValue (n + 1) (ascii "O:x:\"C\":0:\x7b\x7d") =
      Outcome.ret (PhpValue.object [] [], none, ascii "\"C\":0:\x7b\x7d")) ∧
    (∀ n, Decode (n + 2) (ascii "v|i:abc;") =
      Outcome.ret ([(ascii "v", PhpValue.int 0)], none)) := by
  refine ⟨DecodeValue_ret_none, ?_, fun _ => rfl, fun _ => rfl, fun _ => rfl, fun _ => rfl,
    fun _ => rfl⟩
  intro fuel input session e h
  exact decodeLoop_ret_none (DecodeValue fuel) (DecodeValue_ret_none fuel) fuel [] input session e h

/-- The loop counter stays an `int`. -/
theorem incInt_le (i : Int) (h : i ≤ maxInt) : incInt i ≤ maxInt := by
  unfold incInt
  by_cases hi : i = maxInt
  · simp [hi, minInt, maxInt]
  · simp only [hi, if_false]
    omega

/-- With the largest `int` as declared length the loop of `decodeArray` never
returns: its counter never exceeds the declared length. -/
theorem arrayLoop_maxInt_no_return (dv : Bytes → Outcome (PhpValue × Option GoError × Bytes))
    (steps : Nat) (i : Int) (st : PhpSessionData × Option GoError × Bytes) (hi : i ≤ maxInt)
    (x : PhpSessionData × Option GoError × Bytes) :
    arrayLoop dv maxInt steps i st ≠ Outcome.ret x := by
  induction steps generalizing i st with
  | zero => simp [arrayLoop]
  | succ n ih =>
    obtain ⟨value, err, r⟩ := st
    rw [arrayLoop]
    simp only [hi, if_true]
    have hinc := incInt_le i hi
    split
    · split
      · exact ih _ _ hinc
      · split
        · split
          · exact ih _ _ hinc
          · split
            · exact ih _ _ hinc
            · exact ih _ _ hinc
            · exact ih _ _ hinc
        · simp
        · simp
    · simp
    · simp

/-- At the end of the input, or on the closing brace at the end of the input,
the loop of `decodeArray` with the largest `int` as declared length uses up
every step budget. -/
theorem arrayLoop_maxInt_outOfFuel (fuel steps : Nat) (i : Int) (m : PhpSessionData)
    (err : Option GoError) (r : Bytes) (hi : i ≤ maxInt) (hr : r = [] ∨ r = [125]) :
    arrayLoop (DecodeValue fuel) maxInt steps i (m, err, r) = Outcome.outOfFuel := by
  induction steps generalizing i m err r with
  | zero => rfl
  | succ n ih =>
    have hinc := incInt_le i hi
    rw [arrayLoop]
    simp only [hi, if_true]
    cases fuel with
    | zero => rfl
    | succ f =>
      have h1 : DecodeValue (f + 1) r = Outcome.ret (PhpValue.null, none, []) := by
        rcases hr with rfl | rfl <;> rfl
      have h2 : DecodeValue (f + 1) [] = Outcome.ret (PhpValue.null, none, []) := rfl
      simp only [h1]
      cases err with
      | some e => exact ih _ _ _ _ hinc (Or.inl rfl)
      | none =>
        simp only [h2]
        exact ih _ _ _ _ hinc (Or.inl rfl)

/-- C20: on `x|a:9223372036854775807:{}` the loop `for i := 0; i <= arrLen; i++`
of `decodeArray` never ends, because no `int` exceeds the declared length:
`Decode` uses up every step budget, and `DecodeValue` never returns on an
array whose declared length is the largest `int`, whatever follows. -/
theorem Decode_loops_forever_at_max_array_length :
    (∀ fuel, Decode fuel (ascii "x|a:9223372036854775807:\x7b\x7d") = Outcome.outOfFuel) ∧
    (∀ (fuel : Nat) (rest : Bytes) (x : PhpValue × Option GoError × Bytes),
      DecodeValue fuel (ascii "a:9223372036854775807:" ++ rest) ≠ Outcome.ret x) := by
  have hat : atoi (ascii "9223372036854775807") = (maxInt, none) := by decide
  constructor
  · intro fuel
    cases fuel with
    | zero => rfl
    | succ f =>
      have hr : readUntil TYPE_VALUE_SEPARATOR (ascii "9223372036854775807:\x7b\x7d") =
          (ascii "9223372036854775807", none, ascii "\x7b\x7d") := by decide
      have he : (expect 123 (ascii "\x7b\x7d")).2 = [125] := by decide
      have hd : decodeArray (DecodeValue f) f (ascii "9223372036854775807:\x7b\x7d") =
          Outcome.outOfFuel := by
        simp only [decodeArray, hr, hat, he,
          arrayLoop_maxInt_outOfFuel f f 0 [] none [125] (by decide) (Or.inr rfl)]
      have hv : DecodeValue (f + 1) (ascii "a:9223372036854775807:\x7b\x7d") =
          Outcome.outOfFuel := by
        have hrr : readRune (ascii "a:9223372036854775807:\x7b\x7d") =
            some (97, ascii ":9223372036854775807:\x7b\x7d") := by decide
        have hee : (expect TYPE_VALUE_SEPARATOR (ascii ":9223372036854775807:\x7b\x7d")).2 =
            ascii "9223372036854775807:\x7b\x7d" := by decide
        rw [DecodeValue]
        simp only [hrr, hee, hd]
        simp
      have hru : readUntil VALUE_NAME_SEPARATOR (ascii "x|a:9223372036854775807:\x7b\x7d") =
          (ascii "x", none, ascii "a:9223372036854775807:\x7b\x7d") := by decide
      rw [Decode, decodeLoop]
      simp only [hru, hv]
  · intro fuel rest x
    cases fuel with
    | zero => simp [DecodeValue]
    | succ f =>
      have hin : ascii "a:9223372036854775807:" ++ rest =
          97 :: 58 :: (ascii "9223372036854775807" ++ TYPE_VALUE_SEPARATOR :: rest) := by
        simp [ascii, TYPE_VALUE_SEPARATOR]
      have hr := readUntil_stop TYPE_VALUE_SEPARATOR (ascii "9223372036854775807") rest
        (by decide)
      rw [hin, DecodeValue]
      simp only [readRune_ascii 97 _ (by decide), expect_ascii _ 58 _ (by decide)]
      rcases hl : arrayLoop (DecodeValue f) maxInt f 0 ([], none, (expect 123 rest).2)
        with x' | _ | _
      · exact absurd hl (arrayLoop_maxInt_no_return _ _ _ _ (by decide) _)
      · simp [decodeArray, hr, hat, hl]
      · simp [decodeArray, hr, hat, hl]

/-- The keys of a map after an assignment. -/
theorem mapInsert_keys (m : PhpSessionData) (k : Bytes) (v : PhpValue) :
    (mapInsert m k v).map Prod.fst =
      if k ∈ m.map Prod.fst then m.map Prod.fst else m.map Prod.fst ++ [k] := by
  induction m with
  | nil => simp [mapInsert]
  | cons p m ih =>
    obtain ⟨k0, v0⟩ := p
    by_cases h0 : k0 = k
    · simp [mapInsert, h0]
    · have h0' : ¬ k = k0 := fun e => h0 e.symm
      by_cases hm : k ∈ m.map Prod.fst
      · simp only [mapInsert, h0, if_false, List.map_cons, ih, hm, if_true, List.mem_cons,
          or_true]
      · simp only [mapInsert, h0, if_false, List.map_cons, ih, hm, List.mem_cons, h0',
          or_self, List.cons_append]

/-- A map assignment adds at most one entry. -/
theorem mapInsert_length_le (m : PhpSessionData) (k : Bytes) (v : PhpValue) :
    (mapInsert m k v).length ≤ m.length + 1 := by
  have h := congrArg List.length (mapInsert_keys m k v)
  simp only [List.length_map] at h
  rw [h]
  split_ifs <;> simp

/-- Storing pairs adds at most one entry for each pair. -/
theorem pairsToMap_length_le (ps : List (Key × Scalar)) (m : PhpSessionData) :
    (pairsToMap m ps).length ≤ m.length + ps.length := by
  induction ps generalizing m with
  | nil => simp [pairsToMap]
  | cons p ps ih =>
    obtain ⟨k, v⟩ := p
    have h1 := ih (mapInsert m k.text v.toValue)
    have h2 := mapInsert_length_le m k.text v.toValue
    simp only [pairsToMap, List.length_cons]
    omega

/-- Storing pairs with new, pairwise distinct keys adds one entry for each
pair. -/
theorem pairsToMap_length_nodup (ps : List (Key × Scalar)) (m : PhpSessionData)
    (h : (m.map Prod.fst ++ ps.map (fun p => p.1.text)).Nodup) :
    (pairsToMap m ps).length = m.length + ps.length := by
  induction ps generalizing m with
  | nil => simp [pairsToMap]
  | cons p ps ih =>
    obtain ⟨k, v⟩ := p
    have hk : k.text ∉ m.map Prod.fst := by
      intro hm
      have := List.nodup_append.mp h
      exact this.2.2 hm (by simp)
    have hkeys := mapInsert_keys m k.text v.toValue
    simp only [hk, if_false] at hkeys
    have hlen : (mapInsert m k.text v.toValue).length = m.length + 1 := by
      have := congrArg List.length hkeys
      simpa using this
    have h' : ((mapInsert m k.text v.toValue).map Prod.fst ++
        ps.map (fun p => p.1.text)).Nodup := by
      rw [hkeys]
      simpa using h
    have := ih (mapInsert m k.text v.toValue) h'
    simp only [pairsToMap, List.length_cons]
    omega

/-- C11, as amended: for an array or an object at the end of the input whose
body holds exactly the declared number `L` of key/value pairs (Int or Str keys,
scalar values, `L` below the largest `int`), the member mapping that
`DecodeValue` returns, for every step budget of at least `L + 3`, is the map of
the pairs: it has one entry for each distinct key (an Int key counted under
its decimal text), so at most `L` entries, and exactly `L` entries when the
keys are pairwise distinct. -/
theorem DecodeValue_member_count (fuel : Nat) (c : Bytes) (ps : List (Key × Scalar))
    (hps : ∀ p ∈ ps, p.1.WellTyped ∧ p.2.WellTyped) (hc : (c.length : Int) ≤ maxInt)
    (hlen : (ps.length : Int) < maxInt) :
    DecodeValue (fuel + ps.length + 3)
        (ascii "a:" ++ decimal ps.length ++ ascii ":\x7b" ++ encodePairs ps ++ ascii "\x7d") =
      Outcome.ret (PhpValue.array (pairsToMap [] ps), none, []) ∧
    DecodeValue (fuel + ps.length + 3)
        (ascii "O:" ++ decimal c.length ++ ascii ":\"" ++ c ++ ascii "\":" ++
          decimal ps.length ++ ascii ":\x7b" ++ encodePairs ps ++ ascii "\x7d") =
      Outcome.ret (PhpValue.object c (pairsToMap [] ps), none, []) ∧
    (pairsToMap [] ps).length ≤ ps.length ∧
    ((ps.map (fun p => p.1.text)).Nodup → (pairsToMap [] ps).length = ps.length) := by
  refine ⟨?_, ?_, ?_, ?_⟩
  · have h := DecodeValue_array fuel ps hps hlen
    have hin : ascii "a:" ++ decimal ps.length ++ ascii ":\x7b" ++ encodePairs ps ++
        ascii "\x7d" =
        97 :: 58 :: (decimal ps.length ++ 58 :: 123 :: (encodePairs ps ++ [125])) := by
      simp [ascii]
    rw [hin]
    exact h
  · have h := DecodeValue_object fuel c ps hc hps hlen
    have hin : ascii "O:" ++ decimal c.length ++ ascii ":\"" ++ c ++ ascii "\":" ++
        decimal ps.length ++ ascii ":\x7b" ++ encodePairs ps ++ ascii "\x7d" =
        79 :: 58 :: (decimal c.length ++ 58 :: 34 :: (c ++ 34 :: 58 ::
          (decimal ps.length ++ 58 :: 123 :: (encodePairs ps ++ [125])))) := by
      simp [ascii]
    rw [hin]
    exact h
  · simpa using pairsToMap_length_le ps []
  · intro hnd
    simpa using pairsToMap_length_nodup ps [] (by simpa using hnd)

/-- C11, as amended, at the array `a:2:{i:0;s:1:"a";i:1;s:1:"b";}`: two
pairs with distinct keys, two entries. -/
theorem DecodeValue_member_count_witness :
    DecodeValue 5 (ascii "a:2:\x7bi:0;s:1:\"a\";i:1;s:1:\"b\";\x7d") =
      Outcome.ret (PhpValue.array
        [(ascii "0", PhpValue.str (ascii "a")), (ascii "1", PhpValue.str (ascii "b"))],
        none, []) :=
  (DecodeValue_member_count 0 []
    [(Key.int 0, Scalar.str (ascii "a")), (Key.int 1, Scalar.str (ascii "b"))]
    (by simp [Key.WellTyped, Scalar.WellTyped, minInt, maxInt, ascii]) (by decide)
    (by decide)).1

/-- C11, as the claim states it, fails: on `a:2:{i:0;i:1;i:0;i:2;}`, whose two
pairs have the same key, `DecodeValue` returns without error, for every step
budget of at least 5, an array with one entry for the declared length 2, and
for no step budget an array with two entries. (On the input
`a:1:{i:0;i:1;i:2;i:3;}` of the claim the loop reads a pair more than declared
and the array returned has two entries.) -/
theorem DecodeValue_repeated_key_one_entry :
    (∀ n, DecodeValue (n + 5) (ascii "a:2:\x7bi:0;i:1;i:0;i:2;\x7d") =
      Outcome.ret (PhpValue.array [(ascii "0", PhpValue.int 2)], none, [])) ∧
    (¬ ∃ fuel m e r, DecodeValue fuel (ascii "a:2:\x7bi:0;i:1;i:0;i:2;\x7d") =
        Outcome.ret (PhpValue.array m, e, r) ∧ m.length = 2) ∧
    (∀ n, DecodeValue (n + 4) (ascii "a:1:\x7bi:0;i:1;i:2;i:3;\x7d") =
      Outcome.ret (PhpValue.array [(ascii "0", PhpValue.int 1), (ascii "2", PhpValue.int 3)],
        none, [])) := by
  have hret : ∀ n, DecodeValue (n + 5) (ascii "a:2:\x7bi:0;i:1;i:0;i:2;\x7d") =
      Outcome.ret (PhpValue.array [(ascii "0", PhpValue.int 2)], none, []) :=
    fun _ => rfl
  refine ⟨hret, ?_, fun _ => rfl⟩
  rintro ⟨fuel, m, e, r, h, hm⟩
  have hlow : ∀ fuel, fuel < 5 →
      DecodeValue fuel (ascii "a:2:\x7bi:0;i:1;i:0;i:2;\x7d") = Outcome.outOfFuel := by
    intro fuel hf
    interval_cases fuel <;> rfl
  by_cases hf : fuel < 5
  · rw [hlow fuel hf] at h
    simp at h
  · obtain ⟨n, rfl⟩ := Nat.exists_eq_add_of_le' (Nat.le_of_not_lt hf)
    rw [hret n] at h
    simp only [Outcome.ret.injEq, Prod.mk.injEq, PhpValue.array.injEq] at h
    rw [← h.1] at hm
    simp at hm

/-- Once the error of `decodeArray` is set, the loop stores nothing more and
the error stays non-nil. -/
theorem arrayLoop_error_state (dv : Bytes → Outcome (PhpValue × Option GoError × Bytes))
    (arrLen : Int) (steps : Nat) (i : Int) (m : PhpSessionData) (e : GoError) (r : Bytes)
    (m' : PhpSessionData) (e' : Option GoError) (r' : Bytes)
    (h : arrayLoop dv arrLen steps i (m, some e, r) = Outcome.ret (m', e', r')) :
    e' ≠ none ∧ m' = m := by
  induction steps generalizing i e r with
  | zero => simp [arrayLoop] at h
  | succ n ih =>
    rw [arrayLoop] at h
    by_cases hi : i ≤ arrLen
    · simp only [hi, if_true] at h
      rcases hd : dv r with ⟨k, ke, r1⟩ | _ | _
      · rw [hd] at h
        exact ih _ _ _ h
      · rw [hd] at h; simp at h
      · rw [hd] at h; simp at h
    · simp only [hi, if_false, Outcome.ret.injEq, Prod.mk.injEq] at h
      exact ⟨by rw [← h.2.1]; simp, h.1.symm⟩

/-- An iteration of the loop of `decodeArray` whose key is neither an `int`
nor a `string`: whatever the loop returns afterwards, the map is the one before
that iteration and the error is non-nil. -/
theorem arrayLoop_bad_key (dv : Bytes → Outcome (PhpValue × Option GoError × Bytes))
    (arrLen : Int) (steps : Nat) (i : Int) (m : PhpSessionData) (r : Bytes)
    (k : PhpValue) (ke : Option GoError) (r1 : Bytes)
    (hk : (∀ n, k ≠ PhpValue.int n) ∧ (∀ s, k ≠ PhpValue.str s))
    (hi : i ≤ arrLen) (hd : dv r = Outcome.ret (k, ke, r1))
    (m' : PhpSessionData) (e' : Option GoError) (r' : Bytes)
    (h : arrayLoop dv arrLen steps i (m, none, r) = Outcome.ret (m', e', r')) :
    e' ≠ none ∧ m' = m := by
  cases steps with
  | zero => simp [arrayLoop] at h
  | succ n =>
    rw [arrayLoop] at h
    simp only [hi, if_true, hd] at h
    rcases hv : dv r1 with ⟨v, ve, r2⟩ | _ | _
    · rw [hv] at h
      simp only [] at h
      cases k with
      | int n => exact absurd rfl (hk.1 n)
      | str s => exact absurd rfl (hk.2 s)
      | null => exact arrayLoop_error_state _ _ _ _ _ _ _ _ _ _ h
      | bool b => exact arrayLoop_error_state _ _ _ _ _ _ _ _ _ _ h
      | float f => exact arrayLoop_error_state _ _ _ _ _ _ _ _ _ _ h
      | array a => exact arrayLoop_error_state _ _ _ _ _ _ _ _ _ _ h
      | object c a => exact arrayLoop_error_state _ _ _ _ _ _ _ _ _ _ h
    · rw [hv] at h; simp at h
    · rw [hv] at h; simp at h

/-- The loop of `decodeArray` over serialized pairs, for every step budget:
what it returns is what it returns from the state after these pairs. -/
theorem arrayLoop_pairs_ret (fuel : Nat) (arrLen : Int) (harr : arrLen < maxInt)
    (ps : List (Key × Scalar)) (hps : ∀ p ∈ ps, p.1.WellTyped ∧ p.2.WellTyped)
    (steps : Nat) (i : Int) (m : PhpSessionData) (rest : Bytes)
    (hi : i + ps.length ≤ arrLen + 1) (x : PhpSessionData × Option GoError × Bytes)
    (h : arrayLoop (DecodeValue (fuel + 1)) arrLen steps i (m, none, encodePairs ps ++ rest) =
      Outcome.ret x) :
    ∃ steps', arrayLoop (DecodeValue (fuel + 1)) arrLen steps' (i + ps.length)
      (pairsToMap m ps, none, rest) = Outcome.ret x := by
  induction ps generalizing i m steps with
  | nil => exact ⟨steps, by simpa [encodePairs, pairsToMap] using h⟩
  | cons p ps ih =>
    obtain ⟨k, v⟩ := p
    have hk := (hps (k, v) (by simp)).1
    have hv := (hps (k, v) (by simp)).2
    have hps' : ∀ p ∈ ps, p.1.WellTyped ∧ p.2.WellTyped := fun p hp => hps p (by simp [hp])
    simp only [List.length_cons, Nat.cast_add, Nat.cast_one] at hi
    cases steps with
    | zero => simp [arrayLoop] at h
    | succ st =>
      have hle : i ≤ arrLen := by omega
      have hinc := incInt_lt i (by omega)
      have hdk := Key_decode fuel k (v.encode ++ (encodePairs ps ++ rest)) hk
      have hdv := DecodeValue_scalar fuel v (encodePairs ps ++ rest) hv
      have hin : encodePairs ((k, v) :: ps) ++ rest =
          k.encode ++ (v.encode ++ (encodePairs ps ++ rest)) := by
        simp [encodePairs]
      rw [hin, arrayLoop] at h
      simp only [hle, if_true, hdk, hdv, hinc] at h
      have hcast : i + ((ps.length + 1 : Nat) : Int) = i + 1 + (ps.length : Int) := by
        push_cast; omega
      rw [List.length_cons, hcast, pairsToMap]
      cases k with
      | int n => exact ih hps' st (i + 1) _ (by omega) h
      | str s => exact ih hps' st (i + 1) _ (by omega) h

/-- One iteration of the loop of `decodeArray` whose key is neither an `int`
nor a `string`: nothing is stored and the error is set. -/
theorem arrayLoop_bad_key_step (dv : Bytes → Outcome (PhpValue × Option GoError × Bytes))
    (arrLen : Int) (steps : Nat) (i : Int) (m : PhpSessionData) (r : Bytes)
    (k v : PhpValue) (ke ve : Option GoError) (r1 r2 : Bytes)
    (hk : (∀ n, k ≠ PhpValue.int n) ∧ (∀ s, k ≠ PhpValue.str s))
    (hi : i ≤ arrLen) (hdk : dv r = Outcome.ret (k, ke, r1))
    (hdv : dv r1 = Outcome.ret (v, ve, r2)) :
    arrayLoop dv arrLen (steps + 1) i (m, none, r) =
      arrayLoop dv arrLen steps (incInt i) (m, some GoError.unexpectedKeyType, r2) := by
  rw [arrayLoop]
  simp only [hi, if_true, hdk, hdv]
  cases k with
  | int n => exact absurd rfl (hk.1 n)
  | str s => exact absurd rfl (hk.2 s)
  | null => rfl
  | bool b => rfl
  | float f => rfl
  | array a => rfl
  | object c a => rfl

/-- With its error set, the loop of `decodeArray` over serialized scalars that
are followed by the end of the input, or by a closing brace and the end of the
input, returns once its counter has passed the declared length. -/
theorem arrayLoop_error_returns (fuel : Nat) (arrLen : Int) (harr : arrLen < maxInt)
    (n : Nat) (vs : List Scalar) (hvs : ∀ v ∈ vs, v.WellTyped) (tail : Bytes)
    (htail : tail = [] ∨ tail = [125]) (i : Int) (m : PhpSessionData) (e : GoError)
    (steps : Nat) (hi : i + n = arrLen + 1) :
    ∃ e' r', arrayLoop (DecodeValue (fuel + 1)) arrLen (steps + n + 1) i
      (m, some e, encodeScalars vs ++ tail) = Outcome.ret (m, some e', r') := by
  induction n generalizing vs tail i e with
  | zero =>
    have hnot : ¬ i ≤ arrLen := by omega
    refine ⟨e, encodeScalars vs ++ tail, ?_⟩
    rw [arrayLoop]
    simp only [hnot, if_false]
  | succ n ih =>
    have hle : i ≤ arrLen := by omega
    have hinc := incInt_lt i (by omega)
    have hsteps : steps + (n + 1) + 1 = (steps + n + 1) + 1 := by omega
    rw [hsteps, arrayLoop]
    simp only [hle, if_true, hinc]
    cases vs with
    | nil =>
      have hd : DecodeValue (fuel + 1) (encodeScalars [] ++ tail) =
          Outcome.ret (PhpValue.null, none, []) := by
        rcases htail with rfl | rfl <;> rfl
      simp only [hd]
      have := ih [] (by simp) [] (Or.inl rfl) (i + 1) GoError.cannotReadArrayKey
        (by push_cast at hi ⊢; omega)
      simpa [encodeScalars] using this
    | cons v vs =>
      have hv := hvs v (by simp)
      have hvs' : ∀ w ∈ vs, w.WellTyped := fun w hw => hvs w (by simp [hw])
      have hin : encodeScalars (v :: vs) ++ tail = v.encode ++ (encodeScalars vs ++ tail) := by
        simp [encodeScalars]
      rw [hin, DecodeValue_scalar fuel v _ hv]
      exact ih vs hvs' tail htail (i + 1) GoError.cannotReadArrayKey
        (by push_cast at hi ⊢; omega)

/-- The serialized form of pairs is the serialized form of their scalars. -/
theorem encodePairs_eq_encodeScalars (qs : List (Key × Scalar)) :
    encodePairs qs = encodeScalars (pairScalars qs) := by
  induction qs with
  | nil => rfl
  | cons p qs ih =>
    obtain ⟨k, v⟩ := p
    cases k <;> simp [encodePairs, pairScalars, encodeScalars, Key.encode, Key.toScalar, ih]

/-- The scalars of well-typed pairs are well typed. -/
theorem pairScalars_wellTyped (qs : List (Key × Scalar))
    (h : ∀ p ∈ qs, p.1.WellTyped ∧ p.2.WellTyped) : ∀ v ∈ pairScalars qs, v.WellTyped := by
  induction qs with
  | nil => simp [pairScalars]
  | cons p qs ih =>
    obtain ⟨k, w⟩ := p
    have hp := h (k, w) (by simp)
    have hq : ∀ p ∈ qs, p.1.WellTyped ∧ p.2.WellTyped := fun p hp => h p (by simp [hp])
    intro v hv
    simp only [pairScalars, List.mem_cons] at hv
    rcases hv with rfl | rfl | hv
    · cases k <;> exact hp.1
    · exact hp.2
    · exact ih hq v hv

/-- What `decodeArray` does with a key that is neither an Int nor a Str, on
the inputs on which it returns. Let the pairs `ps` (Int or Str keys, scalar
values) be read and let the next key decode to such a value `k`. Whatever
`decodeArray` then returns, for a declared length `L` that covers that key and
whatever follows it, has a non-nil error and the map of the pairs `ps` alone.
And when the array holds `L` scalar pairs in all, one of them with that key,
and ends the input, `decodeArray` returns so for every step budget of at least
`L + 2`. -/
theorem decodeArray_after_bad_key (fuel : Nat) (ps : List (Key × Scalar)) (k : PhpValue)
    (hps : ∀ p ∈ ps, p.1.WellTyped ∧ p.2.WellTyped)
    (hk : (∀ n, k ≠ PhpValue.int n) ∧ (∀ s, k ≠ PhpValue.str s)) :
    (∀ (L steps : Nat) (rest r1 : Bytes) (ke : Option GoError) (m : PhpSessionData)
        (e : Option GoError) (r' : Bytes),
      ps.length ≤ L → (L : Int) ≤ maxInt →
      DecodeValue (fuel + 1) rest = Outcome.ret (k, ke, r1) →
      decodeArray (DecodeValue (fuel + 1)) steps
        (decimal L ++ ascii ":\x7b" ++ encodePairs ps ++ rest) = Outcome.ret (m, e, r') →
      e ≠ none ∧ m = pairsToMap [] ps) ∧
    (∀ (steps : Nat) (kbytes : Bytes) (v : Scalar) (qs : List (Key × Scalar)),
      (∀ rest, DecodeValue (fuel + 1) (kbytes ++ rest) = Outcome.ret (k, none, rest)) →
      v.WellTyped → (∀ p ∈ qs, p.1.WellTyped ∧ p.2.WellTyped) →
      ((ps.length + 1 + qs.length : Nat) : Int) < maxInt →
      ∃ e r', decodeArray (DecodeValue (fuel + 1)) (steps + (ps.length + 1 + qs.length) + 2)
        (decimal (ps.length + 1 + qs.length) ++ ascii ":\x7b" ++ encodePairs ps ++ kbytes ++
          v.encode ++ encodePairs qs ++ ascii "\x7d") =
        Outcome.ret (pairsToMap [] ps, some e, r')) := by
  constructor
  · intro L steps rest r1 ke m e r' hL hmax hdk h
    have hlo : minInt ≤ (L : Int) := by simp only [minInt]; omega
    have hat := atoi_itoa (L : Int) hlo hmax
    rw [itoa_ofNat] at hat
    have hin : decimal L ++ ascii ":\x7b" ++ encodePairs ps ++ rest =
        decimal L ++ 58 :: 123 :: (encodePairs ps ++ rest) := by
      simp [ascii]
    rw [hin] at h
    simp only [decodeArray, TYPE_VALUE_SEPARATOR,
      readUntil_stop 58 (decimal L) _ (decimal_no_stop _ 58 (by omega)), hat,
      expect_ascii 123 123 _ (by omega)] at h
    rcases hl : arrayLoop (DecodeValue (fuel + 1)) (L : Int) steps 0
      ([], none, encodePairs ps ++ rest) with ⟨m2, e2, r2⟩ | _ | _
    · rw [hl] at h
      simp only [Outcome.ret.injEq, Prod.mk.injEq] at h
      obtain ⟨hm, he, _⟩ := h
      subst hm he
      by_cases hLmax : (L : Int) = maxInt
      · rw [hLmax] at hl
        exact absurd hl (arrayLoop_maxInt_no_return _ _ _ _ (by decide) _)
      · have hlt : (L : Int) < maxInt := lt_of_le_of_ne hmax hLmax
        obtain ⟨steps', hs⟩ := arrayLoop_pairs_ret fuel (L : Int) hlt ps hps steps 0 [] rest
          (by omega) _ hl
        exact arrayLoop_bad_key _ _ _ _ _ _ k ke r1 hk (by omega) hdk _ _ _ hs
    · rw [hl] at h; simp at h
    · rw [hl] at h; simp at h
  · intro steps kbytes v qs hdk hv hqs hlen
    have hlo : minInt ≤ ((ps.length + 1 + qs.length : Nat) : Int) := by
      simp only [minInt]; omega
    have hat := atoi_itoa ((ps.length + 1 + qs.length : Nat) : Int) hlo (by omega)
    rw [itoa_ofNat] at hat
    have hin : decimal (ps.length + 1 + qs.length) ++ ascii ":\x7b" ++ encodePairs ps ++
        kbytes ++ v.encode ++ encodePairs qs ++ ascii "\x7d" =
        decimal (ps.length + 1 + qs.length) ++ 58 :: 123 ::
          (encodePairs ps ++ (kbytes ++ (v.encode ++ (encodePairs qs ++ [125])))) := by
      simp [ascii]
    have hsteps : steps + (ps.length + 1 + qs.length) + 2 =
        ((steps + (qs.length + 1) + 1) + 1) + ps.length := by omega
    have hpairs := arrayLoop_pairs fuel ((ps.length + 1 + qs.length : Nat) : Int) hlen ps hps
      ((steps + (qs.length + 1) + 1) + 1) 0 []
      (kbytes ++ (v.encode ++ (encodePairs qs ++ [125]))) (by push_cast; omega)
    have hbad := arrayLoop_bad_key_step (DecodeValue (fuel + 1))
      ((ps.length + 1 + qs.length : Nat) : Int) (steps + (qs.length + 1) + 1)
      (0 + (ps.length : Int)) (pairsToMap [] ps)
      (kbytes ++ (v.encode ++ (encodePairs qs ++ [125]))) k v.toValue none none
      (v.encode ++ (encodePairs qs ++ [125])) (encodePairs qs ++ [125]) hk
      (by push_cast; omega) (hdk _) (DecodeValue_scalar fuel v _ hv)
    have hinc := incInt_lt (0 + (ps.length : Int)) (by push_cast at hlen; omega)
    obtain ⟨e', r', hret⟩ := arrayLoop_error_returns fuel
      ((ps.length + 1 + qs.length : Nat) : Int) hlen (qs.length + 1) (pairScalars qs)
      (pairScalars_wellTyped qs hqs) [125] (Or.inr rfl) (0 + (ps.length : Int) + 1)
      (pairsToMap [] ps) GoError.unexpectedKeyType steps (by push_cast; omega)
    rw [← encodePairs_eq_encodeScalars] at hret
    refine ⟨e', (expect 125 r').2, ?_⟩
    rw [hin, hsteps]
    simp only [decodeArray, TYPE_VALUE_SEPARATOR,
      readUntil_stop 58 (decimal (ps.length + 1 + qs.length)) _
        (decimal_no_stop _ 58 (by omega)), hat,
      expect_ascii 123 123 _ (by omega), hpairs, hbad, hinc, hret]

/-- C18: after a key that is neither an Int nor a Str, `decodeArray` does not
always return. On `1:{b:1;s:-1:"";}` the value of the pair with the boolean
key has a negative length and `decodeArray` panics, for every step budget of
at least 1. On `9223372036854775807:{b:1;i:0;}` the loop never ends and
`decodeArray` uses up every step budget. On `1:{b:1;i:0;}`, where neither
happens, it returns, for every step budget of at least 3, a non-nil error and
an empty map. -/
theorem decodeArray_nonscalar_key_no_return :
    (∀ n s, decodeArray (DecodeValue (n + 1)) (s + 1) (ascii "1:\x7bb:1;s:-1:\"\";\x7d") =
      Outcome.panic) ∧
    (∀ fuel steps, decodeArray (DecodeValue fuel) steps
      (ascii "9223372036854775807:\x7bb:1;i:0;\x7d") = Outcome.outOfFuel) ∧
    (∀ n s, decodeArray (DecodeValue (n + 1)) (s + 3) (ascii "1:\x7bb:1;i:0;\x7d") =
      Outcome.ret ([], some GoError.cannotReadArrayKey, [])) := by
  refine ⟨fun _ _ => rfl, ?_, fun _ _ => rfl⟩
  intro fuel steps
  have hr : readUntil TYPE_VALUE_SEPARATOR (ascii "9223372036854775807:\x7bb:1;i:0;\x7d") =
      (ascii "9223372036854775807", none, ascii "\x7bb:1;i:0;\x7d") := by decide
  have hat : atoi (ascii "9223372036854775807") = (maxInt, none) := by decide
  have he : (expect 123 (ascii "\x7bb:1;i:0;\x7d")).2 = ascii "b:1;i:0;\x7d" := by decide
  have hloop : arrayLoop (DecodeValue fuel) maxInt steps 0 ([], none, ascii "b:1;i:0;\x7d") =
      Outcome.outOfFuel := by
    cases steps with
    | zero => rfl
    | succ s =>
      cases fuel with
      | zero => rfl
      | succ f =>
        have h1 : arrayLoop (DecodeValue (f + 1)) maxInt (s + 1) 0
            ([], none, ascii "b:1;i:0;\x7d") =
            arrayLoop (DecodeValue (f + 1)) maxInt s 1
              ([], some GoError.unexpectedKeyType, [125]) := rfl
        rw [h1]
        exact arrayLoop_maxInt_outOfFuel (f + 1) s 1 [] _ [125] (by decide) (Or.inr rfl)
  simp only [decodeArray, hr, hat, he, hloop]

end PhpSessionDecoder
